import Mathlib

/-!
Verification development for the multi-agent conversation orchestrator of the
`atoms` repository (Next.js/TypeScript).  The TypeScript sources are shallowly
embedded as Lean definitions over `List Char` strings: the response parser
(`parseToolCalls`, `parseThinking`), the streaming display projection, the tool
executor (`executeToolCall`), the conversation loop (`runAgentLoop`), the
delegation orchestrator inside `sendMessage`, the mention resolver
(`parseMentions`), the agent registry (`AGENTS`), and the preview-store helpers
(`saveFile`, `queueCommand`).  JavaScript strings are modelled as `List Char`,
`undefined` as `Option.none`, thrown exceptions as explicit error values, and
the regular expressions of the source are modelled by equivalent scanning
functions on character lists.
-/

set_option maxHeartbeats 1000000
set_option maxRecDepth 8000
set_option linter.unusedVariables false

namespace Atoms

/-- JavaScript strings, modelled as lists of characters. -/
abbrev Str := List Char

/-- Characters treated as whitespace by JavaScript `String.prototype.trim`
(ASCII fragment: space, tab, newline, carriage return, vertical tab, form
feed). -/
def isSpaceChar (c : Char) : Bool :=
  c = ' ' || c = '\t' || c = '\n' || c = '\r' || c = (Char.ofNat 11) || c = (Char.ofNat 12)

/-- Drop leading whitespace. -/
def ltrim (s : Str) : Str := s.dropWhile isSpaceChar

/-- Drop trailing whitespace. -/
def rtrim (s : Str) : Str := (s.reverse.dropWhile isSpaceChar).reverse

/-- JavaScript `String.prototype.trim`. -/
def trim (s : Str) : Str := rtrim (ltrim s)

/-- Lower-case a character (ASCII), modelling the `i` flag of the source's
regular expressions and `toLowerCase`. -/
def lower (c : Char) : Char := c.toLower

/-- Lower-case a string. -/
def lowerS (s : Str) : Str := s.map lower

/-- Case-sensitive prefix test. -/
def isPre (pat s : Str) : Bool := List.isPrefixOf pat s

/-- Case-insensitive prefix test (models `i`-flagged regex matching). -/
def isPreCI (pat s : Str) : Bool := List.isPrefixOf (lowerS pat) (lowerS s)

/-- Index of the first (case-sensitive) occurrence of `pat` in `s`. -/
def firstOcc (pat : Str) : Str → Option Nat
  | [] => if isPre pat [] then some 0 else none
  | c :: rest =>
    if isPre pat (c :: rest) then some 0
    else (firstOcc pat rest).map (· + 1)

/-- Index of the first case-insensitive occurrence of `pat` in `s`. -/
def firstOccCI (pat s : Str) : Option Nat := firstOcc (lowerS pat) (lowerS s)

/-- Split at the first occurrence of `pat`: returns the part before the match
and the part after it.  `some (pre, post)` means `s = pre ++ pat ++ post` and
`pat` does not occur earlier. -/
def splitFirst (pat : Str) : Str → Option (Str × Str)
  | [] => if isPre pat [] then some ([], []) else none
  | c :: rest =>
    if isPre pat (c :: rest) then some ([], (c :: rest).drop pat.length)
    else (splitFirst pat rest).map (fun p => (c :: p.1, p.2))

/-- `occursIn pat s` holds when `pat` occurs (case-sensitively) somewhere in
`s`. -/
def occursIn (pat s : Str) : Bool := (firstOcc pat s).isSome

/-- Case-insensitive occurrence test. -/
def occursInCI (pat s : Str) : Bool := occursIn (lowerS pat) (lowerS s)

/-- Length of the shortest prefix of `s` that ends with `close`, where none of
the characters before `close` is a newline: this models the lazy,
newline-excluding regex fragment `.*?close` of the source
(`project-store.ts`, `parseToolCalls`).  The returned length includes
`close`. -/
def lazyTo (close : Str) : Str → Option Nat
  | [] => if isPre close [] then some 0 else none
  | c :: rest =>
    if isPre close (c :: rest) then some close.length
    else if c = '\n' then none
    else (lazyTo close rest).map (· + 1)

/-- The sentinel opener `<!--TOOL_CALLS:` of the API route's trailing tool-call
block. -/
def tcOpen : Str := "<!--TOOL_CALLS:".data

/-- The sentinel closer `-->`. -/
def tcClose : Str := "-->".data

/-- First match of the source regex `<!--TOOL_CALLS:(.*?)-->` (no dotall flag,
so the captured group contains no newline); returns the captured group.
Models `content.match(...)` in `parseToolCalls` (`project-store.ts:194`). -/
def findTCBody : Str → Option Str
  | [] => none
  | c :: rest =>
    if isPre tcOpen (c :: rest) then
      match lazyTo tcClose ((c :: rest).drop tcOpen.length) with
      | some n => some (((c :: rest).drop tcOpen.length).take (n - tcClose.length))
      | none => findTCBody rest
    else findTCBody rest

/-- Length of the match of `\n?<!--TOOL_CALLS:.*?-->` at the head of `s`
(`none` when there is no match starting here). -/
def matchTC (s : Str) : Option Nat :=
  match s with
  | [] => none
  | c :: rest =>
    if c = '\n' && isPre tcOpen rest then
      (lazyTo tcClose (rest.drop tcOpen.length)).map (fun n => 1 + tcOpen.length + n)
    else if isPre tcOpen (c :: rest) then
      (lazyTo tcClose ((c :: rest).drop tcOpen.length)).map (fun n => tcOpen.length + n)
    else none

/-- Generic global-replace-by-empty scanner: walks the string; whenever
`matcher` reports a match of length `m` at the current position the matched
characters are dropped and scanning resumes after them, otherwise the current
character is kept.  The `Nat` argument is the number of characters still to
skip from a previous match (start it at `0`).  All matchers used below return
positive lengths. -/
def removeScan (matcher : Str → Option Nat) : Str → Nat → Str
  | [], _ => []
  | _ :: rest, n + 1 => removeScan matcher rest n
  | c :: rest, 0 =>
    match matcher (c :: rest) with
    | some m => removeScan matcher rest (m - 1)
    | none => c :: removeScan matcher rest 0

/-- `content.replace(/\n?<!--TOOL_CALLS:.*?-->/g, '')`
(`project-store.ts:222`). -/
def removeTC (s : Str) : Str := removeScan matchTC s 0

/-- Length of the match of the case-insensitive lazy pair regex
`open[\s\S]*?close` at the head of `s`. -/
def matchPairCI (op cl s : Str) : Option Nat :=
  if isPreCI op s then
    (firstOccCI cl (s.drop op.length)).map (fun i => op.length + i + cl.length)
  else none

/-- `s.replace(/open[\s\S]*?close/gi, '')`. -/
def removePairsCI (op cl s : Str) : Str := removeScan (matchPairCI op cl) s 0

/-- Captured group of the first match of `open([\s\S]*?)close` (case
insensitive): the text between the first occurrence of `op` and the first
occurrence of `cl` after it. -/
def firstPairCI (op cl s : Str) : Option Str :=
  match firstOccCI op s with
  | none => none
  | some i =>
    (firstOccCI cl (s.drop (i + op.length))).map
      (fun j => (s.drop (i + op.length)).take j)

/-- `s.replace(/pat[\s\S]*$/i, '')`: cut everything from the first
case-insensitive occurrence of `pat` to the end. -/
def cutFromCI (pat s : Str) : Str :=
  match firstOccCI pat s with
  | some i => s.take i
  | none => s

/-- Drop a single trailing newline, if present. -/
def dropOneTrailingNl (s : Str) : Str :=
  match s.getLast? with
  | some c => if c = '\n' then s.dropLast else s
  | none => s

/-- `rawContent.replace(/\n?<!--TOOL_CALLS:[\s\S]*$/, '')`
(`project-store.ts:553`): cut from the first sentinel opener (and one
directly preceding newline) to the end. -/
def cutTC (s : Str) : Str :=
  match firstOcc tcOpen s with
  | none => s
  | some i => dropOneTrailingNl (s.take i)

/-! ## JSON

`JSON.parse` of the JavaScript runtime, modelled for the fragment the
orchestrator exchanges (null, booleans, integer numbers, strings with the
standard escapes, arrays, objects).  Floating-point numbers are outside the
modelled fragment: inputs using them make the modelled parser fail, which the
theorems below treat as ill-formed input.  Duplicate object keys resolve to
the last occurrence, as in `JSON.parse`. -/

inductive Json where
  | jnull : Json
  | jbool : Bool → Json
  | jnum : Int → Json
  | jstr : Str → Json
  | jarr : List Json → Json
  | jobj : List (Str × Json) → Json

/-- JSON whitespace (space, tab, newline, carriage return). -/
def skipWs (s : Str) : Str :=
  s.dropWhile (fun c => c = ' ' || c = '\t' || c = '\n' || c = '\r')

/-- Value of a hexadecimal digit. -/
def hexVal (c : Char) : Option Nat :=
  if '0' ≤ c ∧ c ≤ '9' then some (c.toNat - '0'.toNat)
  else if 'a' ≤ c ∧ c ≤ 'f' then some (c.toNat - 'a'.toNat + 10)
  else if 'A' ≤ c ∧ c ≤ 'F' then some (c.toNat - 'A'.toNat + 10)
  else none

/-- Parse the body of a JSON string (after the opening quote); returns the
decoded characters and the rest of the input after the closing quote. -/
def parseJStr : Str → Option (Str × Str)
  | [] => none
  | '"' :: rest => some ([], rest)
  | '\\' :: rest =>
    match rest with
    | 'u' :: h1 :: h2 :: h3 :: h4 :: rest2 =>
      match hexVal h1, hexVal h2, hexVal h3, hexVal h4 with
      | some a, some b, some c, some d =>
        (parseJStr rest2).map
          (fun p => (Char.ofNat (((a * 16 + b) * 16 + c) * 16 + d) :: p.1, p.2))
      | _, _, _, _ => none
    | e :: rest2 =>
      let dec : Option Char :=
        if e = '"' then some '"'
        else if e = '\\' then some '\\'
        else if e = '/' then some '/'
        else if e = 'b' then some (Char.ofNat 8)
        else if e = 'f' then some (Char.ofNat 12)
        else if e = 'n' then some '\n'
        else if e = 'r' then some '\r'
        else if e = 't' then some '\t'
        else none
      match dec with
      | some d => (parseJStr rest2).map (fun p => (d :: p.1, p.2))
      | none => none
    | [] => none
  | c :: rest => (parseJStr rest).map (fun p => (c :: p.1, p.2))

/-- Parse an integer JSON number starting at the head of the input. -/
def parseJNum (s : Str) : Option (Int × Str) :=
  let (neg, s1) : Bool × Str :=
    match s with
    | '-' :: rest => (true, rest)
    | _ => (false, s)
  let digits := s1.takeWhile Char.isDigit
  if digits = [] then none
  else
    let n : Nat := digits.foldl (fun acc c => acc * 10 + (c.toNat - '0'.toNat)) 0
    some (if neg then -(n : Int) else (n : Int), s1.drop digits.length)

mutual

/-- Parse one JSON value (with fuel). -/
def parseJVal : Nat → Str → Option (Json × Str)
  | 0, _ => none
  | fuel + 1, s =>
    match skipWs s with
    | 'n' :: 'u' :: 'l' :: 'l' :: rest => some (.jnull, rest)
    | 't' :: 'r' :: 'u' :: 'e' :: rest => some (.jbool true, rest)
    | 'f' :: 'a' :: 'l' :: 's' :: 'e' :: rest => some (.jbool false, rest)
    | '"' :: rest => (parseJStr rest).map (fun p => (.jstr p.1, p.2))
    | '[' :: rest => (parseJElems fuel (skipWs rest)).map (fun p => (.jarr p.1, p.2))
    | c :: rest =>
      if c = Char.ofNat 123 then
        (parseJFields fuel (skipWs rest)).map (fun p => (.jobj p.1, p.2))
      else if c = '-' || c.isDigit then
        (parseJNum (c :: rest)).map (fun p => (.jnum p.1, p.2))
      else none
    | [] => none

/-- Parse the elements of a JSON array (input positioned after `[` and
whitespace). -/
def parseJElems : Nat → Str → Option (List Json × Str)
  | 0, _ => none
  | fuel + 1, s =>
    match s with
    | ']' :: rest => some ([], rest)
    | s =>
      match parseJVal fuel s with
      | none => none
      | some (v, rest) =>
        match skipWs rest with
        | ',' :: rest2 =>
          (parseJElems fuel (skipWs rest2)).map (fun p => (v :: p.1, p.2))
        | ']' :: rest2 => some ([v], rest2)
        | _ => none

/-- Parse the fields of a JSON object (input positioned after `{` and
whitespace). -/
def parseJFields : Nat → Str → Option (List (Str × Json) × Str)
  | 0, _ => none
  | fuel + 1, s =>
    match s with
    | c :: rest =>
      if c = Char.ofNat 125 then some ([], rest)
      else if c = '"' then
        match parseJStr rest with
        | none => none
        | some (key, rest1) =>
          match skipWs rest1 with
          | ':' :: rest2 =>
            match parseJVal fuel rest2 with
            | none => none
            | some (v, rest3) =>
              match skipWs rest3 with
              | ',' :: rest4 =>
                (parseJFields fuel (skipWs rest4)).map (fun p => ((key, v) :: p.1, p.2))
              | c2 :: rest4 =>
                if c2 = Char.ofNat 125 then some ([(key, v)], rest4) else none
              | [] => none
          | _ => none
      else none
    | [] => none

end

/-- `JSON.parse` on the modelled fragment: the whole input must be consumed
(up to trailing whitespace). -/
def jsonParse (s : Str) : Option Json :=
  match parseJVal (2 * s.length + 2) s with
  | some (v, rest) => if skipWs rest = [] then some v else none
  | none => none

/-- Object member lookup; duplicate keys resolve to the last occurrence, as
`JSON.parse` does. -/
def Json.lookup (j : Json) (k : Str) : Option Json :=
  match j with
  | .jobj fields => ((fields.reverse).find? (fun f => f.1 = k)).map (fun f => f.2)
  | _ => none

/-- Read a member as a JavaScript string; a missing member is `undefined`
(`none`).  Non-string member values are outside the modelled fragment and are
treated as `undefined`. -/
def jsGetStr (j : Json) (k : Str) : Option Str :=
  match j.lookup k with
  | some (.jstr s) => some s
  | _ => none

/-- JavaScript falsiness of a JSON value (`null`, `false`, `0`, `""`). -/
def jsFalsy (j : Json) : Bool :=
  match j with
  | .jnull => true
  | .jbool b => !b
  | .jnum n => n = 0
  | .jstr s => s = []
  | _ => false

/-! ## Response parser (`project-store.ts:190-279`) -/

/-- Lifecycle status of a tool call. -/
inductive ToolStatus where
  | pending | running | completed | error
deriving DecidableEq, Repr

/-- A parsed tool call (`project-store.ts:139-145`).  `arguments` is the
deserialized argument record. -/
structure ToolCall where
  id : Str
  name : Str
  arguments : Json
  status : ToolStatus
  result : Option Str := none

/-- The wire triple of one tool call inside the sentinel block
(`{id, name, arguments}` with `arguments` a JSON-encoded string).  A missing
`arguments` member is JavaScript `undefined` (`none`). -/
structure TCTriple where
  id : Str
  name : Str
  arguments : Option Str

/-- Decode one element of the sentinel array.  The source casts without
validating; the modelled decoder requires the well-formed shape (string `id`
and `name`, string or absent `arguments`) and treats anything else as a parse
failure. -/
def decodeTriple (j : Json) : Option TCTriple :=
  match jsGetStr j "id".data, jsGetStr j "name".data with
  | some id, some name =>
    match j.lookup "arguments".data with
    | some (.jstr a) => some ⟨id, name, some a⟩
    | none => some ⟨id, name, none⟩
    | some _ => none
  | _, _ => none

/-- Decode the sentinel array `[{id, name, arguments}, ...]`. -/
def decodeTriples (j : Json) : Option (List TCTriple) :=
  match j with
  | .jarr es => es.mapM decodeTriple
  | _ => none

/-- Per-call argument deserialization (`project-store.ts:205-213`): an absent
or empty `arguments` string leaves the arguments `{}` (it is falsy); a parse
failure wraps the raw string under the sentinel key `_raw`. -/
def argParse (a : Option Str) : Json :=
  match a with
  | none => .jobj []
  | some raw =>
    if raw = [] then .jobj []
    else
      match jsonParse raw with
      | some v => v
      | none => .jobj [("_raw".data, .jstr raw)]

/-- Build the pending `ToolCall` of one wire triple
(`project-store.ts:204-220`). -/
def mkPendingCall (t : TCTriple) : ToolCall :=
  { id := t.id, name := t.name, arguments := argParse t.arguments,
    status := .pending, result := none }

/-- `<tools>` opener of the fallback encoding. -/
def toolsOpen : Str := "<tools>".data

/-- `</tools>` closer of the fallback encoding. -/
def toolsClose : Str := "</tools>".data

/-- Decode the single-call `<tools>` payload `{name, arguments}`
(`project-store.ts:234-244`); a falsy `arguments` member becomes `{}`. -/
def decodeToolsObj (j : Json) : Option (Str × Json) :=
  match jsGetStr j "name".data with
  | none => none
  | some name =>
    match j.lookup "arguments".data with
    | some v => some (name, if jsFalsy v then .jobj [] else v)
    | none => some (name, .jobj [])

/-- Fallback branch of `parseToolCalls` (`project-store.ts:229-256`): the
`<tools>...</tools>` encoding used by some models, then the no-tool-calls
default.  `Date.now()` of the generated id is modelled as the constant `0`
(no claim depends on it). -/
def parseToolCallsFallback (content : Str) : Str × List ToolCall :=
  match firstPairCI toolsOpen toolsClose content with
  | some inner =>
    (match (jsonParse (trim inner)).bind decodeToolsObj with
     | some (name, args) =>
       (trim (removePairsCI toolsOpen toolsClose content),
        [{ id := "tool_0".data, name := name, arguments := args,
           status := .pending, result := none }])
     | none => (content, []))
  | none => (content, [])

/-- `parseToolCalls` (`project-store.ts:190-257`): extract the trailing
sentinel block `<!--TOOL_CALLS:[...]-->`, deserialize each call's arguments,
and strip every sentinel substring from the visible text; on failure fall
back to the `<tools>` form, then to zero tool calls. -/
def parseToolCalls (content : Str) : Str × List ToolCall :=
  match findTCBody content with
  | some body =>
    (match (jsonParse body).bind decodeTriples with
     | some triples =>
       (trim (removeTC content), triples.map mkPendingCall)
     | none => parseToolCallsFallback content)
  | none => parseToolCallsFallback content

/-- `<think>` tag. -/
def thinkOpen : Str := "<think>".data

/-- `</think>` tag. -/
def thinkClose : Str := "</think>".data

/-- `<thinking>` tag. -/
def thinkingOpen : Str := "<thinking>".data

/-- `</thinking>` tag. -/
def thinkingClose : Str := "</thinking>".data

/-- `parseThinking` (`project-store.ts:261-279`): extract the first
`<think>...</think>` (else `<thinking>...</thinking>`) reasoning block and
strip all such closed blocks from the visible text. -/
def parseThinking (content : Str) : Str × Option Str :=
  match firstPairCI thinkOpen thinkClose content with
  | some inner =>
    (trim (removePairsCI thinkOpen thinkClose content), some (trim inner))
  | none =>
    match firstPairCI thinkingOpen thinkingClose content with
    | some inner =>
      (trim (removePairsCI thinkingOpen thinkingClose content), some (trim inner))
    | none => (content, none)

/-- The clean display projection computed for each streamed chunk in `callAI`
(`project-store.ts:551-561`): cut the trailing tool-call block, strip closed
reasoning blocks, trim, then hide unterminated `<think>`/`<thinking>` tails,
and trim again. -/
def displayProjection (raw : Str) : Str :=
  let d1 := cutTC raw
  let d2 := removePairsCI thinkOpen thinkClose d1
  let d3 := removePairsCI thinkingOpen thinkingClose d2
  let d4 := trim d3
  let d5 := cutFromCI thinkOpen d4
  let d6 := cutFromCI thinkingOpen d5
  trim d6

/-! ## Agent registry (`lib/agents/config.ts`)

`icon`, `description`, `systemPrompt` and `color` are prompt/presentation
payload used by no claim and are elided from the embedded record. -/

/-- An agent identity of the compiled-in registry. -/
structure Agent where
  id : Str
  name : Str
  nameEn : Str
  tools : List Str
deriving DecidableEq, Repr

def leaderAgent : Agent :=
  { id := "leader".data, name := "团队领导".data, nameEn := "Team Leader".data,
    tools := ["write_file".data, "read_file".data, "list_directory".data,
      "search_files".data, "run_command".data, "run_preview".data, "delegate_task".data] }

def pmAgent : Agent :=
  { id := "pm".data, name := "产品经理".data, nameEn := "Product Manager".data,
    tools := ["write_file".data, "read_file".data, "list_directory".data, "search_files".data] }

def engineerAgent : Agent :=
  { id := "engineer".data, name := "工程师".data, nameEn := "Engineer".data,
    tools := ["write_file".data, "read_file".data, "list_directory".data,
      "search_files".data, "run_command".data, "run_preview".data] }

def architectAgent : Agent :=
  { id := "architect".data, name := "架构师".data, nameEn := "Architect".data,
    tools := ["read_file".data, "list_directory".data, "search_files".data] }

def analystAgent : Agent :=
  { id := "analyst".data, name := "数据分析师".data, nameEn := "Data Analyst".data,
    tools := ["write_file".data, "read_file".data, "run_command".data] }

def seoAgent : Agent :=
  { id := "seo".data, name := "SEO专家".data, nameEn := "SEO Expert".data,
    tools := ["write_file".data, "read_file".data, "list_directory".data, "search_files".data] }

/-- The registry `AGENTS`, in declaration order (`config.ts:5-253`). -/
def AGENTS : List Agent :=
  [leaderAgent, pmAgent, engineerAgent, architectAgent, analystAgent, seoAgent]

/-- `DEFAULT_AGENT_ID` (`config.ts:3`). -/
def DEFAULT_AGENT_ID : Str := "engineer".data

/-- `getAgent` (`config.ts:256-258`): `AGENTS[id] || AGENTS[DEFAULT_AGENT_ID]`. -/
def getAgent (id : Str) : Agent :=
  (AGENTS.find? (fun a => a.id = id)).getD engineerAgent

/-- `getAgent` applied to a possibly-`undefined` id (indexing with `undefined`
falls through to the default). -/
def getAgentJs (id : Option Str) : Agent :=
  match id with
  | some i => getAgent i
  | none => engineerAgent

/-! ## Mention resolver (`lib/utils/mention-parser.ts`) -/

/-- `MENTION_MAP` in declaration order. -/
def MENTION_MAP : List (Str × Str) :=
  [("团队领导".data, "leader".data),
   ("产品经理".data, "pm".data),
   ("工程师".data, "engineer".data),
   ("数据分析师".data, "analyst".data),
   ("SEO专家".data, "seo".data),
   ("seo专家".data, "seo".data),
   ("领导".data, "leader".data),
   ("开发".data, "engineer".data),
   ("分析师".data, "analyst".data),
   ("leader".data, "leader".data),
   ("pm".data, "pm".data),
   ("engineer".data, "engineer".data),
   ("analyst".data, "analyst".data),
   ("seo".data, "seo".data),
   ("teamleader".data, "leader".data),
   ("team leader".data, "leader".data),
   ("product manager".data, "pm".data),
   ("dev".data, "engineer".data),
   ("developer".data, "engineer".data)]

/-- Stable insertion (after entries of greater or equal length), used to model
the stable `sort((a, b) => b.length - a.length)` of the source. -/
def insertByLen (a : Str) : List Str → List Str
  | [] => [a]
  | b :: rest =>
    if a.length ≤ b.length then b :: insertByLen a rest else a :: b :: rest

/-- The alias alternation, longest first with ties in declaration order
(`mention-parser.ts:366-369`). -/
def mentionNames : List Str :=
  (MENTION_MAP.map Prod.fst).foldl (fun acc n => insertByLen n acc) []

/-- Map a matched alias to its agent id: the first `MENTION_MAP` entry whose
key lower-cases to the match's lower-casing (`mention-parser.ts:386-388`). -/
def lookupMention (a : Str) : Option Str :=
  (MENTION_MAP.find? (fun p => lowerS p.1 = lowerS a)).map (fun p => p.2)

/-- Length of the `MENTION_REGEX` match (`@` followed by an alias, case
insensitive, longest alternative first) at the head of `s`. -/
def mentionMatchLen (s : Str) : Option Nat :=
  match s with
  | '@' :: rest => (mentionNames.find? (fun a => isPreCI a rest)).map (fun a => 1 + a.length)
  | _ => none

/-- Collect the agent ids of all regex matches, in match order (with
duplicates); the `Nat` argument is the skip state of the scan. -/
def collectMentions : Str → Nat → List Str
  | [], _ => []
  | _ :: rest, n + 1 => collectMentions rest n
  | c :: rest, 0 =>
    if c = '@' then
      match mentionNames.find? (fun a => isPreCI a rest) with
      | some a =>
        (match lookupMention a with
         | some agent => agent :: collectMentions rest a.length
         | none => collectMentions rest a.length)
      | none => collectMentions rest 0
    else collectMentions rest 0

/-- Drop duplicates, keeping first occurrences (`!mentions.includes(...)`). -/
def dedup (xs : List Str) : List Str :=
  xs.foldl (fun acc x => if acc.contains x then acc else acc ++ [x]) []

/-- Result of `parseMentions`. -/
structure ParsedInput where
  agentId : Str
  content : Str
  mentions : List Str
deriving DecidableEq, Repr

/-- `parseMentions` (`mention-parser.ts:377-401`): find all `@alias` matches,
dedupe to `mentions`, strip every match from the text, and route to the first
mention (default `engineer`). -/
def parseMentions (input : Str) : ParsedInput :=
  let mentions := dedup (collectMentions input 0)
  { agentId := mentions.headD DEFAULT_AGENT_ID,
    content := trim (removeScan mentionMatchLen input 0),
    mentions := mentions }

/-! ## File store and external collaborators (`lib/store/preview-store`)

The project-file state owned by the preview store, together with the outcomes
of the external collaborators (the relational store behind `upsert`/`delete`
and the sandboxed runtime behind `run_command`).  An `Except.error` outcome
models a thrown exception / failed response from the collaborator. -/

/-- Preview-store state: the project files as (path, content) pairs plus the
`pendingRunPreview` flag. -/
structure World where
  files : List (Str × Str)
  pendingRunPreview : Bool := false
deriving DecidableEq, Repr

/-- Outcomes of the external collaborators, fixed per argument for one run. -/
structure Ext where
  /-- Outcome of the relational store's `upsert` used by `saveFile`. -/
  upsertFile : Str → Str → Str → Except Str Unit
  /-- Outcome of `previewStore.deleteFile` (collaborator behind `delete_file`);
  `Except.error` is a thrown storage exception. -/
  deleteFileOutcome : Str → Str → Except Str Bool
  /-- Settlement of the `queueCommand` promise for a command: `ok` a resolved
  output (including the timeout notice), `error` a rejection. -/
  runCommandOutcome : Str → Except Str Str

/-- Replace the first file with the given path, else append
(`findIndex`/`map`-or-append of `saveFile`). -/
def upsertLocal (files : List (Str × Str)) (path content : Str) : List (Str × Str) :=
  match files.findIdx? (fun f => f.1 = path) with
  | some i => files.set i (path, content)
  | none => files ++ [(path, content)]

/-- `saveFile` (`auth-store.ts:341-368`): upsert the file in the relational
store and mirror it locally; every storage error is caught internally
(`console.error` only), so `saveFile` never throws and a failed upsert leaves
the state unchanged. -/
def saveFile (ext : Ext) (w : World) (projectId path content : Str) : World :=
  match ext.upsertFile projectId path content with
  | .ok _ => { w with files := upsertLocal w.files path content }
  | .error _ => w

/-- Result record of `updateFile`. -/
structure UpdateResult where
  success : Bool
  error : Option Str
deriving DecidableEq, Repr

/-- Modelled from the spec: `previewStore.updateFile` is called by the
executor's `update_file` branch but its implementation is not under `src/`.
Spec §4.2: locate the exact substring `old_content` in the current file
content, replace it with `new_content`, persist; it fails (leaving the file
unchanged) if `old_content` is not found verbatim. -/
def updateFile (w : World) (path oldContent newContent : Str) : UpdateResult × World :=
  match w.files.find? (fun f => f.1 = path) with
  | none => (⟨false, some ("File not found: ".data ++ path)⟩, w)
  | some f =>
    match splitFirst oldContent f.2 with
    | none => (⟨false, some "old_content not found in file".data⟩, w)
    | some (pre, post) =>
      (⟨true, none⟩,
       { w with files := upsertLocal w.files path (pre ++ newContent ++ post) })

/-- `getFileContent` (`auth-store.ts:498-501`). -/
def getFileContent (w : World) (path : Str) : Option Str :=
  (w.files.find? (fun f => f.1 = path)).map (fun f => f.2)

/-- `searchFiles` (`auth-store.ts:539-545`): case-insensitive substring match
on the path. -/
def searchFiles (w : World) (pattern : Str) : List Str :=
  (w.files.filter (fun f => occursIn (lowerS pattern) (lowerS f.1))).map (fun f => f.1)

/-- Modelled from the spec: the depth-aware `listDirectory` called by the
executor is not under `src/` (only an older depth-1 version is).  Spec §4.2:
a listing of the immediate children of `path`, each a file or a directory;
an empty directory is a non-error. -/
def listDirectory (w : World) (path : Str) : List (Str × Bool) :=
  let normalized := (path.dropWhile (· = '/')).reverse.dropWhile (· = '/') |>.reverse
  let entries := w.files.foldl
    (fun acc f =>
      let fp := f.1.dropWhile (· = '/')
      let child : Option (Str × Bool) :=
        if normalized = [] then
          match splitFirst ['/'] fp with
          | some (first, _) => some (first, true)
          | none => some (fp, false)
        else
          match splitFirst (normalized ++ ['/']) fp with
          | some ([], remaining) =>
            (match splitFirst ['/'] remaining with
             | some (first, _) => some (first, true)
             | none => some (remaining, false))
          | _ => none
      match child with
      | some c => if acc.any (fun e => e.1 = c.1) then acc else acc ++ [c]
      | none => acc)
    ([] : List (Str × Bool))
  entries

/-! ## Command queue (`auth-store.ts:443-495`) -/

/-- `COMMAND_TIMEOUT` (`auth-store.ts:446`): milliseconds. -/
def COMMAND_TIMEOUT : Nat := 300000

/-- Settlement state of a command's promise. -/
inductive PromiseState where
  | pending
  | resolvedWith (out : Str)
  | rejectedWith (e : Str)
deriving DecidableEq, Repr

/-- The pending-command queue together with the promise of every command ever
queued. -/
structure CmdState where
  pendingCommands : List (Nat × Str)
  promises : List (Nat × PromiseState)
deriving DecidableEq, Repr

/-- `queueCommand` (`auth-store.ts:443-471`): register the command with a
pending promise. -/
def queueCommand (st : CmdState) (cmdId : Nat) (command : Str) : CmdState :=
  { pendingCommands := st.pendingCommands ++ [(cmdId, command)],
    promises := st.promises ++ [(cmdId, .pending)] }

/-- Settle a promise. -/
def settle (ps : List (Nat × PromiseState)) (cmdId : Nat) (s : PromiseState) :
    List (Nat × PromiseState) :=
  ps.map (fun p => if p.1 = cmdId then (p.1, s) else p)

/-- The timeout notice (`auth-store.ts:454`). -/
def timeoutMessage (command : Str) : Str :=
  "Command timed out after ".data ++ (Nat.repr (COMMAND_TIMEOUT / 1000)).data
    ++ "s: ".data ++ command

/-- The `setTimeout` callback of `queueCommand` (`auth-store.ts:448-456`): if
the command is still pending, remove it and RESOLVE its promise with the
timeout notice (it does not reject). -/
def fireTimeout (st : CmdState) (cmdId : Nat) : CmdState :=
  match st.pendingCommands.find? (fun c => c.1 = cmdId) with
  | some c =>
    { pendingCommands := st.pendingCommands.filter (fun d => d.1 ≠ cmdId),
      promises := settle st.promises cmdId (.resolvedWith (timeoutMessage c.2)) }
  | none => st

/-- `resolveCommand` (`auth-store.ts:477-485`). -/
def resolveCommand (st : CmdState) (cmdId : Nat) (output : Str) : CmdState :=
  match st.pendingCommands.find? (fun c => c.1 = cmdId) with
  | some _ =>
    { pendingCommands := st.pendingCommands.filter (fun d => d.1 ≠ cmdId),
      promises := settle st.promises cmdId (.resolvedWith output) }
  | none => st

/-- `rejectCommand` (`auth-store.ts:487-495`). -/
def rejectCommand (st : CmdState) (cmdId : Nat) (e : Str) : CmdState :=
  match st.pendingCommands.find? (fun c => c.1 = cmdId) with
  | some _ =>
    { pendingCommands := st.pendingCommands.filter (fun d => d.1 ≠ cmdId),
      promises := settle st.promises cmdId (.rejectedWith e) }
  | none => st

/-! ## Tool executor (`project-store.ts:290-404`) -/

/-- A pending delegation collected by the executor
(`project-store.ts:282-287`); `agentId`/`task` are the raw argument values
(possibly `undefined`), `requirements`/`context` are defaulted with `|| ''`. -/
structure DelegateTaskInfo where
  agentId : Option Str
  task : Option Str
  requirements : Str
  context : Str
deriving DecidableEq, Repr

/-- One `updateToolStatus` invocation (ghost trace of the status callback). -/
structure StatusUpd where
  callId : Str
  status : ToolStatus
  result : Option Str
deriving DecidableEq, Repr

/-- Result of `executeToolCall`: the textual result, the optional delegation,
the updated file state, and the chronological `updateToolStatus` events the
call performed. -/
structure ExecOut where
  result : Str
  delegation : Option DelegateTaskInfo
  world : World
  updates : List StatusUpd
deriving DecidableEq, Repr

/-- Render a possibly-`undefined` string the way a template literal does. -/
def jsShow (o : Option Str) : Str := o.getD "undefined".data

/-- Format a directory listing (`project-store.ts:354-364`); the modelled
listing is flat, so no recursion into children is needed. -/
def formatListing (path : Option Str) (items : List (Str × Bool)) : Str :=
  if items = [] then
    "目录 ".data ++ (match path with | some p => if p = [] then "/".data else p | none => "/".data)
      ++ " 为空（这是正常的，项目刚创建时没有文件）".data
  else
    "目录 ".data ++ (match path with | some p => if p = [] then "/".data else p | none => "/".data)
      ++ " 内容:\n".data
      ++ (List.intercalate "\n".data
            (items.map (fun it =>
              (if it.2 then "📁 ".data else "📄 ".data) ++ it.1)))

/-- `executeToolCall` (`project-store.ts:290-404`): set the call `running`,
dispatch on the tool name, mark the call `completed` (with the delegation
result text for `delegate_task`, without a result otherwise), and convert any
exception thrown by a collaborator into an `error` status with an
`Error: ...` result. -/
def executeToolCall (ext : Ext) (w : World) (tc : ToolCall) (projectId : Str) : ExecOut :=
  let runU : StatusUpd := ⟨tc.id, .running, none⟩
  if tc.name = "delegate_task".data then
    let agentIdArg := jsGetStr tc.arguments "agent_id".data
    let taskArg := jsGetStr tc.arguments "task".data
    let requirementsArg := jsGetStr tc.arguments "requirements".data
    let contextArg := jsGetStr tc.arguments "context".data
    let agent := getAgentJs agentIdArg
    let result := "已委派给 ".data ++ agent.name
    { result := result,
      delegation := some ⟨agentIdArg, taskArg, requirementsArg.getD [], contextArg.getD []⟩,
      world := w,
      updates := [runU, ⟨tc.id, .completed, some result⟩] }
  else
    let branch : Except Str (Str × World) :=
      if tc.name = "write_file".data then
        let path := jsShow (jsGetStr tc.arguments "path".data)
        let content := jsShow (jsGetStr tc.arguments "content".data)
        .ok ("File written: ".data ++ path, saveFile ext w projectId path content)
      else if tc.name = "update_file".data then
        let path := jsShow (jsGetStr tc.arguments "path".data)
        let oldContent := jsShow (jsGetStr tc.arguments "old_content".data)
        let newContent := jsShow (jsGetStr tc.arguments "new_content".data)
        let (res, w2) := updateFile w path oldContent newContent
        .ok (if res.success then "File updated: ".data ++ path
             else "Failed to update file: ".data ++ jsShow res.error, w2)
      else if tc.name = "read_file".data then
        let path := jsShow (jsGetStr tc.arguments "path".data)
        .ok (match getFileContent w path with
             | some content => content
             | none => "File not found: ".data ++ path, w)
      else if tc.name = "delete_file".data then
        let path := jsShow (jsGetStr tc.arguments "path".data)
        match ext.deleteFileOutcome projectId path with
        | .ok true => .ok ("File deleted: ".data ++ path,
            { w with files := w.files.filter (fun f => f.1 ≠ path) })
        | .ok false => .ok ("Failed to delete file: ".data ++ path, w)
        | .error e => .error e
      else if tc.name = "list_directory".data then
        let path := jsGetStr tc.arguments "path".data
        .ok (formatListing path (listDirectory w (jsShow path)), w)
      else if tc.name = "search_files".data then
        let pattern := jsShow (jsGetStr tc.arguments "pattern".data)
        let files := searchFiles w pattern
        .ok (if files = [] then "No files found matching: ".data ++ pattern
             else List.intercalate "\n".data files, w)
      else if tc.name = "run_command".data then
        let command := jsShow (jsGetStr tc.arguments "command".data)
        .ok (match ext.runCommandOutcome command with
             | .ok output => output
             | .error e => "Command failed: ".data ++ e, w)
      else if tc.name = "run_preview".data then
        .ok ("Preview started".data, { w with pendingRunPreview := true })
      else
        .ok ("Unknown tool: ".data ++ tc.name, w)
    match branch with
    | .ok (result, w2) =>
      { result := result, delegation := none, world := w2,
        updates := [runU, ⟨tc.id, .completed, none⟩] }
    | .error e =>
      { result := "Error: ".data ++ e, delegation := none, world := w,
        updates := [runU, ⟨tc.id, .error, none⟩] }

/-! ## Conversation loop engine (`project-store.ts:463-881`)

`crypto.randomUUID()` is modelled by a fresh-`Nat` counter; the network
boundary `callAI` is modelled by a function from the message history to the
call's outcome (a full raw response, a user abort observed mid-stream, or a
transport failure); the within-stream UI content updates of `callAI` touch
only the placeholder's text and are not tracked.  `fetchFiles` after
file-modifying tools re-reads the same store `saveFile` wrote, and the
version-snapshot bookkeeping touches no state a claim mentions; both are
no-ops here. -/

/-- One entry of the conversation history sent to the model. -/
structure Msg where
  role : Str
  content : Str
deriving DecidableEq, Repr

/-- One record inserted into the persisted message store. -/
structure PersistedMsg where
  msgId : Nat
  projectId : Str
  role : Str
  content : Str
  agentId : Option Str
deriving DecidableEq, Repr

/-- One message of the transient UI state (`ChatMessage`). -/
structure UiMsg where
  msgId : Nat
  role : Str
  content : Str
  thinking : Option Str := none
  agentId : Option Str := none
  delegatedFrom : Option Str := none
  isStreaming : Bool := false
  toolCalls : Option (List ToolCall) := none

/-- Outcome of one `callAI` round trip. -/
inductive CallResult where
  | success (raw : Str)
  | abortedCall
  | failedCall (msg : Str)

/-- A JavaScript exception escaping the loop: the user-abort error
(`Generation stopped by user` / `AbortError`) or any other failure. -/
inductive JsError where
  | abortedErr
  | otherErr (msg : Str)
deriving DecidableEq, Repr

/-- Ghost record of one completed loop iteration. -/
structure IterRec where
  history : List Msg
  raw : Str
  parsedContent : Str
  msgId : Nat

/-- State threaded through a `sendMessage` run: fresh-id counter, transient UI
messages, rows inserted into the message store, the file state, and ghost
telemetry (status-callback trace, number of model calls, iteration log). -/
structure LoopSt where
  nextId : Nat
  ui : List UiMsg
  persisted : List PersistedMsg
  world : World
  statusTrace : List StatusUpd
  modelCalls : Nat
  iterLog : List IterRec

/-- Apply one status update to a message's tool calls. -/
def applyStatusToCalls (calls : List ToolCall) (u : StatusUpd) : List ToolCall :=
  calls.map (fun tc =>
    if tc.id = u.callId then { tc with status := u.status, result := u.result } else tc)

/-- The `updateToolStatus` callback (`project-store.ts:673-686`): update the
owning message's tool calls and record the event. -/
def updateToolStatus (st : LoopSt) (msgId : Nat) (u : StatusUpd) : LoopSt :=
  { st with
    ui := st.ui.map (fun m =>
      if m.msgId = msgId then
        { m with toolCalls := m.toolCalls.map (fun cs => applyStatusToCalls cs u) }
      else m),
    statusTrace := st.statusTrace ++ [u] }

/-- Sequential tool execution (`project-store.ts:689-704`): run each call,
push its result, perform the loop's unconditional
`updateToolStatus(id, 'completed', result || undefined)`, and collect
delegations. -/
def execTools (ext : Ext) (projectId : Str) (msgId : Nat) :
    List ToolCall → LoopSt → List (Str × Str) → List DelegateTaskInfo →
    List (Str × Str) × List DelegateTaskInfo × LoopSt
  | [], st, results, delegs => (results, delegs, st)
  | tc :: rest, st, results, delegs =>
    let out := executeToolCall ext st.world tc projectId
    let st1 := out.updates.foldl (fun s u => updateToolStatus s msgId u) st
    let st2 := { st1 with world := out.world }
    let results2 := results ++ [(tc.id, out.result)]
    let st3 := updateToolStatus st2 msgId
      ⟨tc.id, .completed, if out.result = [] then none else some out.result⟩
    let delegs2 := match out.delegation with
      | some d => delegs ++ [d]
      | none => delegs
    execTools ext projectId msgId rest st3 results2 delegs2

/-- The synthetic tool-results user message (`project-store.ts:741-751`). -/
def toolResultsUserMsg (results : List (Str × Str)) : Msg :=
  ⟨"user".data,
   "工具执行完成，以下是结果：\n\n".data
     ++ List.intercalate "\n\n".data
          (results.map (fun r => "### ".data ++ r.1 ++ "\n".data ++ r.2))
     ++ "\n\n请根据这些结果继续工作。如果目录为空，说明这是新项目，你可以开始创建文件。".data⟩

/-- Result of one agent loop (`AgentLoopResult`). -/
structure LoopResult where
  delegations : List DelegateTaskInfo
  finalContent : Str
  conversationMessages : List Msg

/-- `maxLoops` (`project-store.ts:603`). -/
def maxLoops : Nat := 100

/-- The body of `runAgentLoop`'s `while` loop (`project-store.ts:611-755`),
with the remaining iteration budget as fuel: add the streaming placeholder,
call the model, parse, finalize the UI message, then either finish (no tool
calls), execute the calls and stop on a pending delegation, or feed the
results back and continue. -/
def runAgentLoopAux (ext : Ext) (model : List Msg → CallResult) (projectId : Str)
    (currentAgentId delegatedFrom : Option Str) :
    Nat → List Msg → List DelegateTaskInfo → Str → LoopSt →
    Except JsError LoopResult × LoopSt
  | 0, msgs, pending, lastContent, st => (.ok ⟨pending, lastContent, msgs⟩, st)
  | fuel + 1, msgs, pending, lastContent, st =>
    let assistantId := st.nextId
    let placeholder : UiMsg :=
      { msgId := assistantId, role := "assistant".data, content := [],
        agentId := currentAgentId, delegatedFrom := delegatedFrom, isStreaming := true }
    let st1 := { st with nextId := st.nextId + 1, ui := st.ui ++ [placeholder] }
    match model msgs with
    | .abortedCall => (.error .abortedErr, { st1 with modelCalls := st1.modelCalls + 1 })
    | .failedCall m => (.error (.otherErr m), { st1 with modelCalls := st1.modelCalls + 1 })
    | .success raw =>
      let st2 := { st1 with modelCalls := st1.modelCalls + 1 }
      let parsedT := parseToolCalls raw
      let toolCalls := parsedT.2
      let parsedTh := parseThinking parsedT.1
      let parsedContent := parsedTh.1
      let st3 := { st2 with
        ui := st2.ui.map (fun m =>
          if m.msgId = assistantId then
            { m with
              content := parsedContent,
              thinking := parsedTh.2,
              toolCalls := if toolCalls.isEmpty then none else some toolCalls,
              isStreaming := false }
          else m),
        iterLog := st2.iterLog ++ [⟨msgs, raw, parsedContent, assistantId⟩] }
      if toolCalls.isEmpty then
        let st4 := { st3 with persisted := st3.persisted
          ++ [⟨assistantId, projectId, "assistant".data, raw, currentAgentId⟩] }
        (.ok ⟨pending, parsedContent, msgs⟩, st4)
      else
        let execOut := execTools ext projectId assistantId toolCalls st3 [] pending
        let results := execOut.1
        let pending2 := execOut.2.1
        let st4 := execOut.2.2
        let st5 := { st4 with persisted := st4.persisted
          ++ [⟨assistantId, projectId, "assistant".data, raw, currentAgentId⟩] }
        if pending2 ≠ [] then
          (.ok ⟨pending2, parsedContent, msgs⟩, st5)
        else
          runAgentLoopAux ext model projectId currentAgentId delegatedFrom fuel
            (msgs ++ [⟨"assistant".data, parsedContent⟩, toolResultsUserMsg results])
            pending2 parsedContent st5

/-- `runAgentLoop` (`project-store.ts:590-781`). -/
def runAgentLoop (ext : Ext) (model : List Msg → CallResult) (projectId : Str)
    (currentAgentId delegatedFrom : Option Str) (initialMessages : List Msg)
    (st : LoopSt) : Except JsError LoopResult × LoopSt :=
  runAgentLoopAux ext model projectId currentAgentId delegatedFrom
    maxLoops initialMessages [] [] st

/-! ## Delegation orchestrator (`project-store.ts:793-850`) -/

/-- The synthetic single-user-message history of a delegation
(`project-store.ts:816-827`): empty or `undefined` sections are dropped by
`filter(Boolean)`. -/
def delegationUserMsg (d : DelegateTaskInfo) : Msg :=
  let parts : List (Option Str) :=
    [some "## 任务".data,
     d.task,
     some (if d.requirements ≠ [] then "\n## 具体要求\n".data ++ d.requirements else []),
     some (if d.context ≠ [] then "\n## 背景信息\n".data ++ d.context else []),
     some "\n---\n请立即执行这个任务。完成后请总结你的工作成果。".data]
  ⟨"user".data,
   List.intercalate "\n".data ((parts.filterMap id).filter (fun s => s ≠ []))⟩

/-- Run the pending delegations sequentially (`project-store.ts:808-832`),
collecting each specialist's labeled report. -/
def runDelegations (ext : Ext) (model : List Msg → CallResult) (projectId : Str)
    (leaderId : Str) :
    List DelegateTaskInfo → LoopSt → List Str → Except JsError (List Str) × LoopSt
  | [], st, reports => (.ok reports, st)
  | d :: rest, st, reports =>
    let delegatedAgent := getAgentJs d.agentId
    match runAgentLoop ext model projectId d.agentId (some leaderId)
        [delegationUserMsg d] st with
    | (.error e, st2) => (.error e, st2)
    | (.ok r, st2) =>
      runDelegations ext model projectId leaderId rest st2
        (reports ++ ["**".data ++ delegatedAgent.name ++ "的报告:**\n".data ++ r.finalContent])

/-- The synthetic feedback message returning specialist reports to the leader
(`project-store.ts:836-843`). -/
def delegationFeedbackMsg (reports : List Str) : Msg :=
  ⟨"user".data,
   "以下是委派任务的执行结果:\n\n".data
     ++ List.intercalate "\n\n---\n\n".data reports
     ++ "\n\n请根据结果决定下一步：继续委派其他人，或者给用户汇总报告。".data⟩

/-- `maxDelegationRounds` (`project-store.ts:794`). -/
def maxDelegationRounds : Nat := 5

/-- The orchestration `while` loop (`project-store.ts:798-846`): while the
leader's run ended with pending delegations and the round budget remains, run
each delegation, then re-invoke the leader with its prior final message and
the concatenated reports. -/
def orchestrate (ext : Ext) (model : List Msg → CallResult) (projectId : Str)
    (leaderId : Str) :
    Nat → LoopResult → LoopSt → Except JsError LoopResult × LoopSt
  | 0, r, st => (.ok r, st)
  | round + 1, r, st =>
    if r.delegations = [] then (.ok r, st)
    else
      match runDelegations ext model projectId leaderId r.delegations st [] with
      | (.error e, st2) => (.error e, st2)
      | (.ok reports, st2) =>
        let feedback := r.conversationMessages
          ++ [⟨"assistant".data, r.finalContent⟩, delegationFeedbackMsg reports]
        match runAgentLoop ext model projectId (some leaderId) none feedback st2 with
        | (.error e, st3) => (.error e, st3)
        | (.ok r2, st3) => orchestrate ext model projectId leaderId round r2 st3

/-! ## `sendMessage` (`project-store.ts:463-882`) -/

/-- The chat/agent store state entering `sendMessage`. -/
structure ChatStateM where
  messages : List UiMsg
  messagesProjectId : Option Str
  currentAgentId : Str

/-- Observable outcome of one `sendMessage` call: final transient UI state,
the rows this call inserted into the message store, the final file state,
ghost telemetry, and the store's error/loading flags.  `abortedRun` records
that the run ended through the user's cancellation. -/
structure SendOutcome where
  ui : List UiMsg
  persisted : List PersistedMsg
  world : World
  statusTrace : List StatusUpd
  modelCalls : Nat
  iterLog : List IterRec
  errorState : Option Str
  isLoading : Bool
  abortedRun : Bool
  currentAgentAfter : Str

/-- The leader run of `sendMessage`: the agent loop followed, on success, by
the delegation orchestration (`project-store.ts:830-860`). -/
def sendRun (ext : Ext) (model : List Msg → CallResult) (projectId : Str)
    (agentId : Str) (initialMessages : List Msg) (st : LoopSt) :
    Except JsError LoopResult × LoopSt :=
  match runAgentLoop ext model projectId (some agentId) none initialMessages st with
  | (.error e, stE) => (.error e, stE)
  | (.ok r, st1) => orchestrate ext model projectId agentId maxDelegationRounds r st1

/-- The tail of `sendMessage` (`project-store.ts:863-881`): map the run's
outcome onto the store, treating a user abort as a non-error
(`error: isAborted ? null : errorMessage`). -/
def sendFinish (prevAgentId agentId : Str)
    (run : Except JsError LoopResult × LoopSt) : SendOutcome :=
  match run with
  | (.ok _, st2) =>
    { ui := st2.ui, persisted := st2.persisted, world := st2.world,
      statusTrace := st2.statusTrace, modelCalls := st2.modelCalls,
      iterLog := st2.iterLog, errorState := none, isLoading := false,
      abortedRun := false, currentAgentAfter := agentId }
  | (.error .abortedErr, st2) =>
    { ui := st2.ui, persisted := st2.persisted, world := st2.world,
      statusTrace := st2.statusTrace, modelCalls := st2.modelCalls,
      iterLog := st2.iterLog, errorState := none, isLoading := false,
      abortedRun := true, currentAgentAfter := prevAgentId }
  | (.error (.otherErr m), st2) =>
    { ui := st2.ui, persisted := st2.persisted, world := st2.world,
      statusTrace := st2.statusTrace, modelCalls := st2.modelCalls,
      iterLog := st2.iterLog, errorState := some m, isLoading := false,
      abortedRun := false, currentAgentAfter := prevAgentId }

/-- `sendMessage`: resolve the mention (else continue with the current agent),
append and persist the user message, run the leader loop plus the delegation
orchestration, and map the outcome (`project-store.ts:463-882`). -/
def sendMessage (ext : Ext) (model : List Msg → CallResult) (projectId : Str)
    (content : Str) (st0 : ChatStateM) (world0 : World) (nextId0 : Nat) : SendOutcome :=
  let parsed := parseMentions content
  let agentId := if parsed.mentions ≠ [] then parsed.agentId else st0.currentAgentId
  let userMsgId := nextId0
  let isSwitching := st0.messagesProjectId ≠ some projectId
  let userUi : UiMsg := { msgId := userMsgId, role := "user".data, content := content }
  let uiStart := (if isSwitching then [] else st0.messages) ++ [userUi]
  let st : LoopSt :=
    { nextId := nextId0 + 1, ui := uiStart,
      persisted := [⟨userMsgId, projectId, "user".data, content, none⟩],
      world := world0, statusTrace := [], modelCalls := 0, iterLog := [] }
  let initialMessages := (uiStart.filter (fun m => !m.isStreaming)).map
    (fun m => (⟨m.role, m.content⟩ : Msg))
  sendFinish st0.currentAgentId agentId
    (sendRun ext model projectId agentId initialMessages st)

/-- The delegation a tool call produces: `delegate_task` calls yield exactly
one `DelegateTaskInfo` built from their arguments, every other tool yields
none (specification of `executeToolCall`'s delegation component). -/
def delegOf (tc : ToolCall) : Option DelegateTaskInfo :=
  if tc.name = "delegate_task".data then
    some ⟨jsGetStr tc.arguments "agent_id".data, jsGetStr tc.arguments "task".data,
          (jsGetStr tc.arguments "requirements".data).getD [],
          (jsGetStr tc.arguments "context".data).getD []⟩
  else none

/-- Number of assistant-role rows among the persisted messages. -/
def countAssist (ps : List PersistedMsg) : Nat :=
  (ps.filter (fun p => p.role = "assistant".data)).length

/-- The parsed visible content of a raw response (tool-call stripping, then
thinking stripping). -/
def parsedOf (raw : Str) : Str := (parseThinking (parseToolCalls raw).1).1

/-- The loop state after the parse-and-finalize phase of one iteration of
`runAgentLoopAux` (placeholder added, model call counted, UI message
finalized, iteration logged). -/
def iterSt3 (currentAgentId delegatedFrom : Option Str) (msgs : List Msg)
    (raw : Str) (st : LoopSt) : LoopSt :=
  let assistantId := st.nextId
  let placeholder : UiMsg :=
    { msgId := assistantId, role := "assistant".data, content := [],
      agentId := currentAgentId, delegatedFrom := delegatedFrom, isStreaming := true }
  let st1 := { st with nextId := st.nextId + 1, ui := st.ui ++ [placeholder] }
  let st2 := { st1 with modelCalls := st1.modelCalls + 1 }
  let toolCalls := (parseToolCalls raw).2
  let parsedTh := parseThinking (parseToolCalls raw).1
  { st2 with
    ui := st2.ui.map (fun m =>
      if m.msgId = assistantId then
        { m with
          content := parsedTh.1,
          thinking := parsedTh.2,
          toolCalls := if toolCalls.isEmpty then none else some toolCalls,
          isStreaming := false }
      else m),
    iterLog := st2.iterLog ++ [⟨msgs, raw, parsedTh.1, assistantId⟩] }

/-- The tool-execution phase of one iteration, entered with no pending
delegations. -/
def iterExec (ext : Ext) (projectId : Str) (currentAgentId delegatedFrom : Option Str)
    (msgs : List Msg) (raw : Str) (st : LoopSt) :
    List (Str × Str) × List DelegateTaskInfo × LoopSt :=
  execTools ext projectId st.nextId (parseToolCalls raw).2
    (iterSt3 currentAgentId delegatedFrom msgs raw st) [] []

/-- The loop state at the end of one tool-call iteration (tools executed,
assistant message persisted). -/
def iterStAfter (ext : Ext) (projectId : Str) (currentAgentId delegatedFrom : Option Str)
    (msgs : List Msg) (raw : Str) (st : LoopSt) : LoopSt :=
  let e := iterExec ext projectId currentAgentId delegatedFrom msgs raw st
  { e.2.2 with persisted := e.2.2.persisted
      ++ [⟨st.nextId, projectId, "assistant".data, raw, currentAgentId⟩] }

/-- The conversation history entering the next iteration after a tool-call
iteration. -/
def iterNextMsgs (ext : Ext) (projectId : Str) (currentAgentId delegatedFrom : Option Str)
    (msgs : List Msg) (raw : Str) (st : LoopSt) : List Msg :=
  msgs ++ [⟨"assistant".data, parsedOf raw⟩,
    toolResultsUserMsg (iterExec ext projectId currentAgentId delegatedFrom msgs raw st).1]

/-- State sanity of a run: no in-flight (streaming) UI message has been
inserted into the persisted message store, and every existing id is below the
fresh-id counter. -/
def LoopInv (st : LoopSt) : Prop :=
  (∀ m ∈ st.ui, m.isStreaming = true → ∀ p ∈ st.persisted, ¬ p.msgId = m.msgId) ∧
  (∀ p ∈ st.persisted, p.msgId < st.nextId) ∧
  (∀ m ∈ st.ui, m.msgId < st.nextId)

end Atoms

namespace Atoms

/-! ## Theorems -/

/-- C9: every `run_command` tool call is subject to the fixed 5-minute
`COMMAND_TIMEOUT`; when the timeout fires while the command is still pending,
`queueCommand`'s timer RESOLVES the promise with the timeout notice (it does
not reject); and the executor's `run_command` branch always yields a textual
result with a `completed` status — a rejected command promise is caught and
rendered as `Command failed: ...`, never rethrown. -/
theorem run_command_timeout_resolves :
    COMMAND_TIMEOUT = 5 * 60 * 1000 ∧
    (∀ (st : CmdState) (cmdId : Nat) (command : Str),
      st.pendingCommands.find? (fun c => c.1 = cmdId) = some (cmdId, command) →
      fireTimeout st cmdId =
        { pendingCommands := st.pendingCommands.filter (fun d => d.1 ≠ cmdId),
          promises := settle st.promises cmdId
            (.resolvedWith (timeoutMessage command)) }) ∧
    (∀ (ext : Ext) (w : World) (args : Json) (callId projectId : Str),
      (executeToolCall ext w ⟨callId, "run_command".data, args, .pending, none⟩
          projectId).updates
        = [⟨callId, .running, none⟩, ⟨callId, .completed, none⟩] ∧
      (executeToolCall ext w ⟨callId, "run_command".data, args, .pending, none⟩
          projectId).result
        = (match ext.runCommandOutcome (jsShow (jsGetStr args "command".data)) with
           | .ok output => output
           | .error e => "Command failed: ".data ++ e)) := by
  refine ⟨rfl, ?_, ?_⟩
  · intro st cmdId command h
    unfold fireTimeout
    rw [h]
  · intro ext w args callId projectId
    constructor
    · cases h : ext.runCommandOutcome (jsShow (jsGetStr args "command".data)) <;>
        simp [executeToolCall, h]
    · cases h : ext.runCommandOutcome (jsShow (jsGetStr args "command".data)) <;>
        simp [executeToolCall, h]

/-- C9 witness: a queued `npm run build` command whose timeout fires is
removed from the queue and its promise is resolved with the 300-second
timeout notice. -/
theorem run_command_timeout_resolves_witness :
    fireTimeout (queueCommand ⟨[], []⟩ 7 "npm run build".data) 7 =
      { pendingCommands :=
          (queueCommand ⟨[], []⟩ 7 "npm run build".data).pendingCommands.filter
            (fun d => d.1 ≠ 7),
        promises := settle (queueCommand ⟨[], []⟩ 7 "npm run build".data).promises 7
          (.resolvedWith (timeoutMessage "npm run build".data)) } :=
  run_command_timeout_resolves.2.1 _ 7 "npm run build".data (by rfl)

/-- C10: a `write_file` call reports `File written: {path}` with a terminal
`completed` status even when the relational store's upsert fails, because
`saveFile` catches every storage error internally and never throws; the
failure leaves the file state unchanged and is invisible to the loop. -/
theorem write_file_reports_success_on_failed_upsert :
    ∀ (ext : Ext) (w : World) (args : Json) (callId projectId path e : Str),
      jsGetStr args "path".data = some path →
      ext.upsertFile projectId path (jsShow (jsGetStr args "content".data))
        = .error e →
      (executeToolCall ext w ⟨callId, "write_file".data, args, .pending, none⟩
          projectId).result = "File written: ".data ++ path ∧
      (executeToolCall ext w ⟨callId, "write_file".data, args, .pending, none⟩
          projectId).updates
        = [⟨callId, .running, none⟩, ⟨callId, .completed, none⟩] ∧
      (executeToolCall ext w ⟨callId, "write_file".data, args, .pending, none⟩
          projectId).world = w := by
  intro ext w args callId projectId path e hpath hupsert
  have hups : ext.upsertFile projectId path
      ((jsGetStr args "content".data).getD "undefined".data) = .error e := by
    simpa [jsShow] using hupsert
  refine ⟨?_, ?_, ?_⟩ <;>
    simp [executeToolCall, saveFile, jsShow, hpath, hups]

/-- C10 witness: with a store whose upsert always fails, writing
`src/App.tsx` still reports success, ends `completed`, and leaves the (empty)
file state unchanged. -/
theorem write_file_reports_success_on_failed_upsert_witness :
    (executeToolCall
        ⟨fun _ _ _ => .error "permission denied".data,
         fun _ _ => .ok true, fun _ => .ok []⟩
        ⟨[], false⟩
        ⟨"c1".data, "write_file".data,
         .jobj [("path".data, .jstr "src/App.tsx".data),
                ("content".data, .jstr "x".data)], .pending, none⟩
        "p1".data).result = "File written: ".data ++ "src/App.tsx".data ∧
    (executeToolCall
        ⟨fun _ _ _ => .error "permission denied".data,
         fun _ _ => .ok true, fun _ => .ok []⟩
        ⟨[], false⟩
        ⟨"c1".data, "write_file".data,
         .jobj [("path".data, .jstr "src/App.tsx".data),
                ("content".data, .jstr "x".data)], .pending, none⟩
        "p1".data).updates
      = [⟨"c1".data, .running, none⟩, ⟨"c1".data, .completed, none⟩] ∧
    (executeToolCall
        ⟨fun _ _ _ => .error "permission denied".data,
         fun _ _ => .ok true, fun _ => .ok []⟩
        ⟨[], false⟩
        ⟨"c1".data, "write_file".data,
         .jobj [("path".data, .jstr "src/App.tsx".data),
                ("content".data, .jstr "x".data)], .pending, none⟩
        "p1".data).world = ⟨[], false⟩ :=
  write_file_reports_success_on_failed_upsert _ _ _ _ _ _ _ (by rfl) (by rfl)

/-! ### Substring and file-store lemmas -/

theorem isPre_nil_iff (pat : Str) : isPre pat [] = true ↔ pat = [] := by
  cases pat <;> simp [isPre, List.isPrefixOf]

theorem isPre_append_drop (pat : Str) :
    ∀ s : Str, isPre pat s = true → s = pat ++ s.drop pat.length := by
  induction pat with
  | nil => intro s _; simp
  | cons a pat ih =>
    intro s h
    cases s with
    | nil => simp [isPre, List.isPrefixOf] at h
    | cons c rest =>
      simp only [isPre, List.isPrefixOf, Bool.and_eq_true, beq_iff_eq] at h
      obtain ⟨rfl, h2⟩ := h
      simpa using ih rest h2

theorem splitFirst_none_iff_firstOcc (pat : Str) :
    ∀ s : Str, splitFirst pat s = none ↔ firstOcc pat s = none := by
  intro s
  induction s with
  | nil => by_cases h : isPre pat [] = true <;> simp [splitFirst, firstOcc, h]
  | cons c rest ih =>
    by_cases h : isPre pat (c :: rest) = true <;>
      simp [splitFirst, firstOcc, h, ih]

theorem splitFirst_none_of_not_occurs (pat s : Str)
    (h : occursIn pat s = false) : splitFirst pat s = none := by
  rw [splitFirst_none_iff_firstOcc]
  rcases hf : firstOcc pat s with _ | i
  · rfl
  · rw [occursIn, hf] at h
    simp at h

theorem splitFirst_some_eq (pat : Str) :
    ∀ s pre post : Str, splitFirst pat s = some (pre, post) →
      s = pre ++ pat ++ post := by
  intro s
  induction s with
  | nil =>
    intro pre post h
    by_cases hp : isPre pat [] = true
    · have hpat : pat = [] := (isPre_nil_iff pat).mp hp
      subst hpat
      have hs : splitFirst ([] : Str) ([] : Str) = some ([], []) := by rfl
      rw [hs] at h
      simp only [Option.some.injEq, Prod.mk.injEq] at h
      obtain ⟨h1, h2⟩ := h
      subst h1; subst h2
      rfl
    · simp [splitFirst, hp] at h
  | cons c rest ih =>
    intro pre post h
    by_cases hp : isPre pat (c :: rest) = true
    · simp only [splitFirst, hp, if_pos, Option.some.injEq, Prod.mk.injEq] at h
      obtain ⟨h1, h2⟩ := h
      subst h1; subst h2
      simpa using isPre_append_drop pat (c :: rest) hp
    · rcases hrest : splitFirst pat rest with _ | ⟨pre1, post1⟩
      · simp [splitFirst, hp, hrest] at h
      · simp only [splitFirst, hp, hrest, Option.map_some', Option.some.injEq,
          Prod.mk.injEq, Bool.false_eq_true, if_false] at h
        obtain ⟨h1, h2⟩ := h
        rw [← h1, ← h2]
        have hres := ih pre1 post1 hrest
        simp [hres]

theorem upsertLocal_cons_hit (q : Str × Str) (fs : List (Str × Str))
    (p c : Str) (h : q.1 = p) :
    upsertLocal (q :: fs) p c = (p, c) :: fs := by
  simp [upsertLocal, List.findIdx?_cons, h, List.set]

theorem upsertLocal_cons_miss (q : Str × Str) (fs : List (Str × Str))
    (p c : Str) (h : ¬ q.1 = p) :
    upsertLocal (q :: fs) p c = q :: upsertLocal fs p c := by
  unfold upsertLocal
  rw [List.findIdx?_cons]
  rcases hf : List.findIdx? (fun f => f.1 = p) fs with _ | i <;>
    simp [h, List.findIdx?_succ, hf, List.set]

theorem find?_upsertLocal_self :
    ∀ (fs : List (Str × Str)) (p c : Str),
      (upsertLocal fs p c).find? (fun f => f.1 = p) = some (p, c) := by
  intro fs
  induction fs with
  | nil => intro p c; simp [upsertLocal, List.find?]
  | cons q fs ih =>
    intro p c
    by_cases h : q.1 = p
    · rw [upsertLocal_cons_hit q fs p c h]
      simp [List.find?]
    · rw [upsertLocal_cons_miss q fs p c h]
      simp only [List.find?_cons, h, decide_eq_true_eq]
      simpa [h] using ih p c

theorem find?_upsertLocal_other :
    ∀ (fs : List (Str × Str)) (p c q : Str), ¬ q = p →
      (upsertLocal fs p c).find? (fun f => f.1 = q)
        = fs.find? (fun f => f.1 = q) := by
  intro fs
  induction fs with
  | nil =>
    intro p c q hne
    have hpq : ¬ p = q := fun hh => hne hh.symm
    simp [upsertLocal, List.find?, hpq]
  | cons g fs ih =>
    intro p c q hne
    have hpq : ¬ p = q := fun hh => hne hh.symm
    by_cases h : g.1 = p
    · rw [upsertLocal_cons_hit g fs p c h]
      have hgq : ¬ g.1 = q := by rw [h]; exact hpq
      simp [List.find?_cons, hgq, hpq]
    · rw [upsertLocal_cons_miss g fs p c h]
      by_cases hgq : g.1 = q
      · simp [List.find?_cons, hgq]
      · simp only [List.find?_cons, hgq, decide_eq_true_eq]
        simpa [hgq] using ih p c q hne

/-- C6: `update_file` with an `old_content` that is not a substring of the
current file content leaves the file state unchanged and reports a failure;
with a matching `old_content` it replaces exactly the first occurrence
(`content = pre ++ old ++ post` becomes `pre ++ new ++ post`), reports
success, and leaves every other file byte-identical.  (`updateFile` itself is
modelled from spec §4.2; its implementation is not under `src/`.) -/
theorem update_file_exact_substring :
    ∀ (ext : Ext) (w : World) (args : Json)
      (callId projectId path oldC newC content : Str),
      jsGetStr args "path".data = some path →
      jsGetStr args "old_content".data = some oldC →
      jsGetStr args "new_content".data = some newC →
      getFileContent w path = some content →
      ((occursIn oldC content = false →
        (executeToolCall ext w ⟨callId, "update_file".data, args, .pending, none⟩
            projectId).world = w ∧
        (executeToolCall ext w ⟨callId, "update_file".data, args, .pending, none⟩
            projectId).result
          = "Failed to update file: ".data ++ "old_content not found in file".data) ∧
       (∀ pre post : Str, splitFirst oldC content = some (pre, post) →
        content = pre ++ oldC ++ post ∧
        (executeToolCall ext w ⟨callId, "update_file".data, args, .pending, none⟩
            projectId).result = "File updated: ".data ++ path ∧
        getFileContent
          (executeToolCall ext w ⟨callId, "update_file".data, args, .pending, none⟩
            projectId).world path = some (pre ++ newC ++ post) ∧
        (∀ q : Str, ¬ q = path →
          getFileContent
            (executeToolCall ext w ⟨callId, "update_file".data, args, .pending, none⟩
              projectId).world q = getFileContent w q))) := by
  intro ext w args callId projectId path oldC newC content hpath hold hnew hfile
  obtain ⟨f, hfind, hf2⟩ : ∃ f, w.files.find? (fun g => g.1 = path) = some f
      ∧ f.2 = content := by
    unfold getFileContent at hfile
    rcases hm : w.files.find? (fun g => g.1 = path) with _ | f
    · rw [hm] at hfile; simp at hfile
    · rw [hm] at hfile
      exact ⟨f, hm, by simpa using hfile⟩
  constructor
  · intro hno
    have hsp : splitFirst oldC content = none :=
      splitFirst_none_of_not_occurs oldC content hno
    have hupd : updateFile w path oldC newC
        = (⟨false, some "old_content not found in file".data⟩, w) := by
      unfold updateFile
      simp only [hfind, hf2, hsp]
    constructor <;>
      simp [executeToolCall, hupd, jsShow, hpath, hold, hnew]
  · intro pre post hsp
    have hdec := splitFirst_some_eq oldC content pre post hsp
    have hupd : updateFile w path oldC newC
        = (⟨true, none⟩,
           { w with files := upsertLocal w.files path (pre ++ newC ++ post) }) := by
      unfold updateFile
      simp only [hfind, hf2, hsp]
    refine ⟨hdec, ?_, ?_, ?_⟩
    · simp [executeToolCall, hupd, jsShow, hpath, hold, hnew]
    · simp only [executeToolCall]
      simp only [jsShow, hpath, hold, hnew, Option.getD_some]
      simp only [hupd]
      simp [getFileContent, find?_upsertLocal_self]
    · intro q hq
      simp [executeToolCall, hupd, jsShow, hpath, hold, hnew, getFileContent]
      rw [find?_upsertLocal_other w.files path (pre ++ (newC ++ post)) q hq]

/-- C6 witness: on a store holding `a.txt` with content `hello world`,
updating with a non-occurring `old_content` fails and leaves the state
unchanged, while updating `world` to `there` rewrites the file to
`hello there`. -/
theorem update_file_exact_substring_witness :
    ((executeToolCall ⟨fun _ _ _ => .ok (), fun _ _ => .ok true, fun _ => .ok []⟩
        ⟨[("a.txt".data, "hello world".data)], false⟩
        ⟨"u1".data, "update_file".data,
         .jobj [("path".data, .jstr "a.txt".data),
                ("old_content".data, .jstr "zzz".data),
                ("new_content".data, .jstr "there".data)], .pending, none⟩
        "p1".data).world = ⟨[("a.txt".data, "hello world".data)], false⟩) ∧
    ((executeToolCall ⟨fun _ _ _ => .ok (), fun _ _ => .ok true, fun _ => .ok []⟩
        ⟨[("a.txt".data, "hello world".data)], false⟩
        ⟨"u1".data, "update_file".data,
         .jobj [("path".data, .jstr "a.txt".data),
                ("old_content".data, .jstr "world".data),
                ("new_content".data, .jstr "there".data)], .pending, none⟩
        "p1".data).result = "File updated: ".data ++ "a.txt".data) ∧
    (getFileContent
      (executeToolCall ⟨fun _ _ _ => .ok (), fun _ _ => .ok true, fun _ => .ok []⟩
        ⟨[("a.txt".data, "hello world".data)], false⟩
        ⟨"u1".data, "update_file".data,
         .jobj [("path".data, .jstr "a.txt".data),
                ("old_content".data, .jstr "world".data),
                ("new_content".data, .jstr "there".data)], .pending, none⟩
        "p1".data).world "a.txt".data = some ("hello ".data ++ "there".data ++ [])) :=
  ⟨(update_file_exact_substring _ _ _ _ _ _ _ _ _
      (by rfl) (by rfl) (by rfl) (by rfl)).1 (by rfl) |>.1,
   ((update_file_exact_substring _ _ _ _ _ _ _ _ _
      (by rfl) (by rfl) (by rfl) (by rfl)).2 "hello ".data [] (by rfl)).2.1,
   ((update_file_exact_substring _ _ _ _ _ _ _ _ _
      (by rfl) (by rfl) (by rfl) (by rfl)).2 "hello ".data [] (by rfl)).2.2.1⟩

/-- C7 counterexample: the registry contains the `architect` identity with
display names `架构师` (native) and `Architect` (translated), yet the mention
resolver recognizes neither `@架构师` nor `@Architect`: `MENTION_MAP` has no
entry for the architect, so parsing finds no mention and routes to the
default engineer with the text unstripped. -/
theorem mention_resolver_misses_architect :
    architectAgent ∈ AGENTS ∧
    architectAgent.name = "架构师".data ∧
    architectAgent.nameEn = "Architect".data ∧
    parseMentions "@Architect review the design".data
      = ⟨"engineer".data, "@Architect review the design".data, []⟩ ∧
    parseMentions "@架构师 审查设计".data
      = ⟨"engineer".data, "@架构师 审查设计".data, []⟩ := by
  refine ⟨by decide, rfl, rfl, by rfl, by rfl⟩

/-- C7 (amended): for every alias of the curated mention map — which covers
every registry agent except `architect`, whose names are absent — the
resolver recognizes `@` followed by that alias, case-insensitively, and the
alternation is longest-alias-first, so the whole alias is always consumed: a
mention of a longer alias (e.g. `developer`) is never pre-empted by a shorter
alias that is its prefix (e.g. `dev`). -/
theorem mention_longest_alias_first :
    ∀ p ∈ MENTION_MAP,
      parseMentions ('@' :: p.1) = ⟨p.2, [], [p.2]⟩ ∧
      parseMentions ('@' :: p.1 ++ " hello".data) = ⟨p.2, "hello".data, [p.2]⟩ ∧
      parseMentions ('@' :: (p.1.map Char.toUpper)) = ⟨p.2, [], [p.2]⟩ := by
  decide

/-- C7 witness: `@developer` resolves to the engineer with the full alias
consumed — the prefix alias `dev` does not pre-empt it (that would leave
`eloper hello` in the text). -/
theorem mention_longest_alias_first_witness :
    parseMentions ('@' :: "developer".data ++ " hello".data)
      = ⟨"engineer".data, "hello".data, ["engineer".data]⟩ :=
  (mention_longest_alias_first ("developer".data, "engineer".data) (by decide)).2.1

/-! ### Tool-execution lemmas -/

theorem executeToolCall_delegation :
    ∀ (ext : Ext) (w : World) (tc : ToolCall) (pid : Str),
      (executeToolCall ext w tc pid).delegation = delegOf tc := by
  intro ext w tc pid
  by_cases h : tc.name = "delegate_task".data
  · simp [executeToolCall, delegOf, h]
  · simp only [executeToolCall, delegOf, h, if_false]
    split <;> rfl

theorem execTools_spec (ext : Ext) (pid : Str) (msgId : Nat) :
    ∀ (calls : List ToolCall) (st : LoopSt) (results : List (Str × Str))
      (delegs : List DelegateTaskInfo),
      (execTools ext pid msgId calls st results delegs).2.1
        = delegs ++ calls.filterMap delegOf ∧
      (execTools ext pid msgId calls st results delegs).2.2.modelCalls
        = st.modelCalls ∧
      (execTools ext pid msgId calls st results delegs).2.2.nextId = st.nextId ∧
      (execTools ext pid msgId calls st results delegs).2.2.persisted
        = st.persisted ∧
      (execTools ext pid msgId calls st results delegs).2.2.iterLog = st.iterLog := by
  intro calls
  induction calls with
  | nil => intro st results delegs; simp [execTools]
  | cons tc rest ih =>
    intro st results delegs
    have hfold : ∀ (us : List StatusUpd) (s : LoopSt),
        ((us.foldl (fun s u => updateToolStatus s msgId u) s).modelCalls = s.modelCalls ∧
         (us.foldl (fun s u => updateToolStatus s msgId u) s).nextId = s.nextId ∧
         (us.foldl (fun s u => updateToolStatus s msgId u) s).persisted = s.persisted ∧
         (us.foldl (fun s u => updateToolStatus s msgId u) s).iterLog = s.iterLog ∧
         (us.foldl (fun s u => updateToolStatus s msgId u) s).world = s.world) := by
      intro us
      induction us with
      | nil => intro s; simp
      | cons u us ihs =>
        intro s
        simpa [updateToolStatus] using ihs (updateToolStatus s msgId u)
    simp only [execTools]
    rcases ih (updateToolStatus
        { (executeToolCall ext st.world tc pid).updates.foldl
            (fun s u => updateToolStatus s msgId u) st with
          world := (executeToolCall ext st.world tc pid).world } msgId
        ⟨tc.id, .completed,
         if (executeToolCall ext st.world tc pid).result = [] then none
         else some (executeToolCall ext st.world tc pid).result⟩)
      (results ++ [(tc.id, (executeToolCall ext st.world tc pid).result)])
      (match (executeToolCall ext st.world tc pid).delegation with
       | some d => delegs ++ [d]
       | none => delegs) with ⟨ha, hb, hc, hd, he⟩
    refine ⟨?_, ?_, ?_, ?_, ?_⟩
    · rw [ha]
      rw [executeToolCall_delegation ext st.world tc pid]
      rcases hdo : delegOf tc with _ | d <;>
        simp [List.filterMap_cons, hdo]
    · rw [hb]
      simpa [updateToolStatus] using
        (hfold (executeToolCall ext st.world tc pid).updates st).1
    · rw [hc]
      simpa [updateToolStatus] using
        (hfold (executeToolCall ext st.world tc pid).updates st).2.1
    · rw [hd]
      simpa [updateToolStatus] using
        (hfold (executeToolCall ext st.world tc pid).updates st).2.2.1
    · rw [he]
      simpa [updateToolStatus] using
        (hfold (executeToolCall ext st.world tc pid).updates st).2.2.2.1

theorem execTools_deleg (ext : Ext) (pid : Str) (msgId : Nat) (calls : List ToolCall)
    (st : LoopSt) (results : List (Str × Str)) (delegs : List DelegateTaskInfo) :
    (execTools ext pid msgId calls st results delegs).2.1
      = delegs ++ calls.filterMap delegOf :=
  (execTools_spec ext pid msgId calls st results delegs).1

theorem execTools_modelCalls (ext : Ext) (pid : Str) (msgId : Nat)
    (calls : List ToolCall) (st : LoopSt) (results : List (Str × Str))
    (delegs : List DelegateTaskInfo) :
    (execTools ext pid msgId calls st results delegs).2.2.modelCalls
      = st.modelCalls :=
  (execTools_spec ext pid msgId calls st results delegs).2.1

theorem execTools_nextId (ext : Ext) (pid : Str) (msgId : Nat)
    (calls : List ToolCall) (st : LoopSt) (results : List (Str × Str))
    (delegs : List DelegateTaskInfo) :
    (execTools ext pid msgId calls st results delegs).2.2.nextId = st.nextId :=
  (execTools_spec ext pid msgId calls st results delegs).2.2.1

theorem execTools_persisted (ext : Ext) (pid : Str) (msgId : Nat)
    (calls : List ToolCall) (st : LoopSt) (results : List (Str × Str))
    (delegs : List DelegateTaskInfo) :
    (execTools ext pid msgId calls st results delegs).2.2.persisted
      = st.persisted :=
  (execTools_spec ext pid msgId calls st results delegs).2.2.2.1

theorem execTools_iterLog (ext : Ext) (pid : Str) (msgId : Nat)
    (calls : List ToolCall) (st : LoopSt) (results : List (Str × Str))
    (delegs : List DelegateTaskInfo) :
    (execTools ext pid msgId calls st results delegs).2.2.iterLog = st.iterLog :=
  (execTools_spec ext pid msgId calls st results delegs).2.2.2.2

theorem filterMap_delegOf_ne_nil {calls : List ToolCall}
    (h : calls.any (fun tc => tc.name = "delegate_task".data) = true) :
    ¬ calls.filterMap delegOf = [] := by
  induction calls with
  | nil => simp at h
  | cons tc rest ih =>
    simp only [List.any_cons, Bool.or_eq_true] at h
    rcases h with h | h
    · intro hcontra
      have : delegOf tc ≠ none := by
        simp only [delegOf, decide_eq_true_eq] at h ⊢
        simp [h]
      rcases hdo : delegOf tc with _ | d
      · exact this hdo
      · rw [List.filterMap_cons, hdo] at hcontra
        simp at hcontra
    · intro hcontra
      rw [List.filterMap_cons] at hcontra
      rcases hdo : delegOf tc with _ | d <;> rw [hdo] at hcontra
      · exact ih h hcontra
      · simp at hcontra

/-- C2 (code bug): a tool call whose collaborator throws is moved to the
terminal `error` status by the executor, but the loop's unconditional
follow-up update (`project-store.ts:697`) then sets the same call to
`completed` with the `Error: ...` text — the status trace of a `delete_file`
call over a throwing storage backend is `running`, `error`, `completed`,
violating the monotonic-status invariant. -/
theorem tool_status_error_then_completed :
    (runAgentLoop
        ⟨fun _ _ _ => .ok (), fun _ _ => .error "storage exception".data,
         fun _ => .ok []⟩
        (fun msgs =>
          if msgs.length = 0 then
            .success "x\n<!--TOOL_CALLS:[\x7b\"id\":\"d1\",\"name\":\"delete_file\",\"arguments\":\"\x7b\\\"path\\\":\\\"a.txt\\\"\x7d\"\x7d]-->".data
          else .success "done".data)
        "p".data (some "engineer".data) none []
        ⟨0, [], [], ⟨[("a.txt".data, "hi".data)], false⟩, [], 0, []⟩).2.statusTrace
      = [⟨"d1".data, .running, none⟩,
         ⟨"d1".data, .error, none⟩,
         ⟨"d1".data, .completed, some ("Error: storage exception".data)⟩] := by
  rfl

/-- C1: whenever the parsed tool calls of a loop iteration (entered with no
pending delegations, as every reachable iteration is) include a
`delegate_task` call, the loop halts after that very iteration — exactly one
more model call is issued — and returns one pending delegation per
`delegate_task` call, in order, whose agent id, task, requirements and
context are exactly that call's arguments (`delegOf`). -/
theorem delegation_halts_loop :
    ∀ (ext : Ext) (model : List Msg → CallResult) (projectId : Str)
      (currentAgentId delegatedFrom : Option Str) (fuel : Nat) (msgs : List Msg)
      (lastContent : Str) (st : LoopSt) (raw : Str),
      model msgs = .success raw →
      (parseToolCalls raw).2.any (fun tc => tc.name = "delegate_task".data) = true →
      (runAgentLoopAux ext model projectId currentAgentId delegatedFrom (fuel + 1)
          msgs [] lastContent st).1
        = .ok ⟨(parseToolCalls raw).2.filterMap delegOf,
               (parseThinking (parseToolCalls raw).1).1, msgs⟩ ∧
      (runAgentLoopAux ext model projectId currentAgentId delegatedFrom (fuel + 1)
          msgs [] lastContent st).2.modelCalls = st.modelCalls + 1 := by
  intro ext model projectId currentAgentId delegatedFrom fuel msgs lastContent st raw
    hmodel hany
  have hne : ¬ (parseToolCalls raw).2.isEmpty = true := by
    rcases hcalls : (parseToolCalls raw).2 with _ | ⟨tc, rest⟩
    · rw [hcalls] at hany; simp at hany
    · simp [List.isEmpty]
  have hnil : ¬ (parseToolCalls raw).2.filterMap delegOf = [] :=
    filterMap_delegOf_ne_nil hany
  constructor
  · simp only [runAgentLoopAux, hmodel]
    rw [if_neg hne]
    simp only [execTools_deleg, List.nil_append]
    rw [if_pos hnil]
  · simp only [runAgentLoopAux, hmodel]
    rw [if_neg hne]
    simp only [execTools_deleg, execTools_modelCalls, List.nil_append]
    rw [if_pos hnil]

/-- C1 witness: a response delegating to the product manager halts the loop
after one model call and returns exactly that delegation. -/
theorem delegation_halts_loop_witness :
    ((runAgentLoopAux ⟨fun _ _ _ => .ok (), fun _ _ => .ok true, fun _ => .ok []⟩
        (fun _ => .success "plan\n<!--TOOL_CALLS:[\x7b\"id\":\"t1\",\"name\":\"delegate_task\",\"arguments\":\"\x7b\\\"agent_id\\\":\\\"pm\\\",\\\"task\\\":\\\"analyze\\\"\x7d\"\x7d]-->".data)
        "p".data (some "leader".data) none 100 [] [] []
        ⟨0, [], [], ⟨[], false⟩, [], 0, []⟩).1
      = .ok ⟨[⟨some "pm".data, some "analyze".data, [], []⟩], "plan".data, []⟩) ∧
    ((runAgentLoopAux ⟨fun _ _ _ => .ok (), fun _ _ => .ok true, fun _ => .ok []⟩
        (fun _ => .success "plan\n<!--TOOL_CALLS:[\x7b\"id\":\"t1\",\"name\":\"delegate_task\",\"arguments\":\"\x7b\\\"agent_id\\\":\\\"pm\\\",\\\"task\\\":\\\"analyze\\\"\x7d\"\x7d]-->".data)
        "p".data (some "leader".data) none 100 [] [] []
        ⟨0, [], [], ⟨[], false⟩, [], 0, []⟩).2.modelCalls = 1) := by
  have h := delegation_halts_loop
    ⟨fun _ _ _ => .ok (), fun _ _ => .ok true, fun _ => .ok []⟩
    (fun _ => .success "plan\n<!--TOOL_CALLS:[\x7b\"id\":\"t1\",\"name\":\"delegate_task\",\"arguments\":\"\x7b\\\"agent_id\\\":\\\"pm\\\",\\\"task\\\":\\\"analyze\\\"\x7d\"\x7d]-->".data)
    "p".data (some "leader".data) none 99 [] []
    ⟨0, [], [], ⟨[], false⟩, [], 0, []⟩
    "plan\n<!--TOOL_CALLS:[\x7b\"id\":\"t1\",\"name\":\"delegate_task\",\"arguments\":\"\x7b\\\"agent_id\\\":\\\"pm\\\",\\\"task\\\":\\\"analyze\\\"\x7d\"\x7d]-->".data
    (by rfl) (by rfl)
  constructor
  · rw [h.1]; rfl
  · rw [h.2]

/-! ### Ceiling lemmas (C5) -/

theorem filterMap_delegOf_eq_nil {calls : List ToolCall}
    (h : calls.all (fun tc => ¬ tc.name = "delegate_task".data) = true) :
    calls.filterMap delegOf = [] := by
  induction calls with
  | nil => simp
  | cons tc rest ih =>
    simp only [List.all_cons, Bool.and_eq_true, decide_eq_true_eq] at h
    have h1 : delegOf tc = none := by simp [delegOf, h.1]
    rw [List.filterMap_cons, h1]
    exact ih h.2

theorem loop_step_eq (ext : Ext) (model : List Msg → CallResult) (projectId : Str)
    (currentAgentId delegatedFrom : Option Str) (fuel : Nat) (msgs : List Msg)
    (lastContent : Str) (st : LoopSt) (raw : Str)
    (hm : model msgs = .success raw)
    (hne : (parseToolCalls raw).2.isEmpty = false)
    (hnil : (parseToolCalls raw).2.filterMap delegOf = []) :
    runAgentLoopAux ext model projectId currentAgentId delegatedFrom (fuel + 1)
        msgs [] lastContent st
      = runAgentLoopAux ext model projectId currentAgentId delegatedFrom fuel
          (iterNextMsgs ext projectId currentAgentId delegatedFrom msgs raw st) []
          (parsedOf raw)
          (iterStAfter ext projectId currentAgentId delegatedFrom msgs raw st) := by
  simp only [runAgentLoopAux, hm]
  rw [if_neg (by simp [hne])]
  simp only [execTools_deleg, hnil, List.append_nil, List.nil_append]
  rw [if_neg (by simp)]
  rfl

theorem iterStAfter_modelCalls (ext : Ext) (projectId : Str)
    (currentAgentId delegatedFrom : Option Str) (msgs : List Msg) (raw : Str)
    (st : LoopSt) :
    (iterStAfter ext projectId currentAgentId delegatedFrom msgs raw st).modelCalls
      = st.modelCalls + 1 := by
  simp [iterStAfter, iterExec, iterSt3, execTools_modelCalls]

theorem iterStAfter_countAssist (ext : Ext) (projectId : Str)
    (currentAgentId delegatedFrom : Option Str) (msgs : List Msg) (raw : Str)
    (st : LoopSt) :
    countAssist
        (iterStAfter ext projectId currentAgentId delegatedFrom msgs raw st).persisted
      = countAssist st.persisted + 1 := by
  simp [iterStAfter, iterExec, iterSt3, execTools_persisted, countAssist,
    List.filter_append]

theorem iterStAfter_iterLog (ext : Ext) (projectId : Str)
    (currentAgentId delegatedFrom : Option Str) (msgs : List Msg) (raw : Str)
    (st : LoopSt) :
    (iterStAfter ext projectId currentAgentId delegatedFrom msgs raw st).iterLog
      = st.iterLog ++ [⟨msgs, raw, parsedOf raw, st.nextId⟩] := by
  simp [iterStAfter, iterExec, iterSt3, execTools_iterLog, parsedOf]

theorem ceiling_aux (ext : Ext) (model : List Msg → CallResult) (projectId : Str)
    (currentAgentId delegatedFrom : Option Str)
    (H : ∀ msgs : List Msg, ∃ raw, model msgs = .success raw ∧
      (parseToolCalls raw).2.isEmpty = false ∧
      (parseToolCalls raw).2.all (fun tc => ¬ tc.name = "delegate_task".data) = true) :
    ∀ (fuel : Nat) (msgs : List Msg) (lastContent : Str) (st : LoopSt),
      ∃ (r : LoopResult) (recs : List IterRec),
        (runAgentLoopAux ext model projectId currentAgentId delegatedFrom fuel
            msgs [] lastContent st).1 = .ok r ∧
        r.delegations = [] ∧
        (runAgentLoopAux ext model projectId currentAgentId delegatedFrom fuel
            msgs [] lastContent st).2.modelCalls = st.modelCalls + fuel ∧
        countAssist (runAgentLoopAux ext model projectId currentAgentId delegatedFrom
            fuel msgs [] lastContent st).2.persisted
          = countAssist st.persisted + fuel ∧
        (runAgentLoopAux ext model projectId currentAgentId delegatedFrom fuel
            msgs [] lastContent st).2.iterLog = st.iterLog ++ recs ∧
        recs.length = fuel ∧
        (∀ rec ∈ recs,
          rec.parsedContent = (parseThinking (parseToolCalls rec.raw).1).1 ∧
          model rec.history = .success rec.raw) ∧
        r.finalContent = (match recs.getLast? with
          | some rec => rec.parsedContent
          | none => lastContent) := by
  intro fuel
  induction fuel with
  | zero =>
    intro msgs lastContent st
    exact ⟨⟨[], lastContent, msgs⟩, [], rfl, rfl, rfl, rfl, by simp [runAgentLoopAux],
      rfl, by simp, rfl⟩
  | succ fuel ih =>
    intro msgs lastContent st
    obtain ⟨raw, hm, hne, hall⟩ := H msgs
    rw [loop_step_eq ext model projectId currentAgentId delegatedFrom fuel msgs
      lastContent st raw hm hne (filterMap_delegOf_eq_nil hall)]
    obtain ⟨r, recs1, h1, h2, h3, h4, h5, h6, h7, h8⟩ :=
      ih (iterNextMsgs ext projectId currentAgentId delegatedFrom msgs raw st)
        (parsedOf raw)
        (iterStAfter ext projectId currentAgentId delegatedFrom msgs raw st)
    refine ⟨r, ⟨msgs, raw, parsedOf raw, st.nextId⟩ :: recs1, h1, h2, ?_, ?_, ?_, ?_, ?_, ?_⟩
    · rw [h3, iterStAfter_modelCalls]; omega
    · rw [h4, iterStAfter_countAssist]; omega
    · rw [h5, iterStAfter_iterLog]; simp
    · simp [h6]
    · intro rec hrec
      rcases List.mem_cons.mp hrec with hh | hmem

      · subst hh
        exact ⟨rfl, hm⟩
      · exact h7 rec hmem
    · rw [h8]
      cases recs1 with
      | nil => rfl
      | cons x xs =>
        rw [List.getLast?_cons_cons]
        rcases hx : (x :: xs).getLast? with _ | y
        · rw [List.getLast?_eq_none_iff] at hx
          cases hx
        · rfl

/-- C5: against a model that returns a non-delegation tool call on every
round, the loop terminates exactly at the iteration ceiling `maxLoops`,
returning a normal completion (no error, no delegations) whose final content
is the last iteration's parsed content, and the number of assistant messages
persisted equals the number of iterations executed (`maxLoops`). -/
theorem loop_terminates_at_ceiling (ext : Ext) (model : List Msg → CallResult)
    (projectId : Str) (currentAgentId delegatedFrom : Option Str)
    (initialMessages : List Msg) (st0 : LoopSt)
    (H : ∀ msgs : List Msg, ∃ raw, model msgs = .success raw ∧
      (parseToolCalls raw).2.isEmpty = false ∧
      (parseToolCalls raw).2.all (fun tc => ¬ tc.name = "delegate_task".data) = true) :
    ∃ (r : LoopResult) (recs : List IterRec) (rec : IterRec),
      (runAgentLoop ext model projectId currentAgentId delegatedFrom
          initialMessages st0).1 = .ok r ∧
      r.delegations = [] ∧
      (runAgentLoop ext model projectId currentAgentId delegatedFrom
          initialMessages st0).2.modelCalls = st0.modelCalls + maxLoops ∧
      countAssist (runAgentLoop ext model projectId currentAgentId delegatedFrom
          initialMessages st0).2.persisted = countAssist st0.persisted + maxLoops ∧
      (runAgentLoop ext model projectId currentAgentId delegatedFrom
          initialMessages st0).2.iterLog = st0.iterLog ++ recs ∧
      recs.length = maxLoops ∧
      recs.getLast? = some rec ∧
      r.finalContent = rec.parsedContent ∧
      rec.parsedContent = (parseThinking (parseToolCalls rec.raw).1).1 ∧
      model rec.history = .success rec.raw := by
  obtain ⟨r, recs, h1, h2, h3, h4, h5, h6, h7, h8⟩ :=
    ceiling_aux ext model projectId currentAgentId delegatedFrom H maxLoops
      initialMessages [] st0
  have hlen : recs ≠ [] := by
    intro hc
    rw [hc] at h6
    simp [maxLoops] at h6
  rcases hlast : recs.getLast? with _ | rec
  · rcases recs with _ | ⟨x, xs⟩
    · exact absurd rfl hlen
    · rw [List.getLast?_eq_getLast _ (by simp)] at hlast
      simp at hlast
  · have hmem : rec ∈ recs := List.mem_of_mem_getLast? hlast
    obtain ⟨hp, hmr⟩ := h7 rec hmem
    rw [hlast] at h8
    exact ⟨r, recs, rec, h1, h2, h3, h4, h5, h6, hlast, h8, hp, hmr⟩

/-- C5 witness: a model constantly answering with one `run_preview` tool call
drives the loop through exactly `maxLoops` (100) model calls and 100
persisted assistant messages. -/
theorem loop_terminates_at_ceiling_witness :
    (runAgentLoop ⟨fun _ _ _ => .ok (), fun _ _ => .ok true, fun _ => .ok []⟩
        (fun _ => .success "ok\n<!--TOOL_CALLS:[\x7b\"id\":\"c1\",\"name\":\"run_preview\",\"arguments\":\"\"\x7d]-->".data)
        "p".data (some "engineer".data) none []
        ⟨0, [], [], ⟨[], false⟩, [], 0, []⟩).2.modelCalls = 0 + maxLoops ∧
    countAssist (runAgentLoop ⟨fun _ _ _ => .ok (), fun _ _ => .ok true, fun _ => .ok []⟩
        (fun _ => .success "ok\n<!--TOOL_CALLS:[\x7b\"id\":\"c1\",\"name\":\"run_preview\",\"arguments\":\"\"\x7d]-->".data)
        "p".data (some "engineer".data) none []
        ⟨0, [], [], ⟨[], false⟩, [], 0, []⟩).2.persisted = 0 + maxLoops := by
  obtain ⟨r, recs, rec, h1, h2, h3, h4, h5, h6, h7, h8, h9, h10⟩ :=
    loop_terminates_at_ceiling
      ⟨fun _ _ _ => .ok (), fun _ _ => .ok true, fun _ => .ok []⟩
      (fun _ => .success "ok\n<!--TOOL_CALLS:[\x7b\"id\":\"c1\",\"name\":\"run_preview\",\"arguments\":\"\"\x7d]-->".data)
      "p".data (some "engineer".data) none []
      ⟨0, [], [], ⟨[], false⟩, [], 0, []⟩
      (fun msgs =>
        ⟨"ok\n<!--TOOL_CALLS:[\x7b\"id\":\"c1\",\"name\":\"run_preview\",\"arguments\":\"\"\x7d]-->".data,
         rfl, by rfl, by rfl⟩)

  exact ⟨h3, h4⟩

/-! ### Cancellation lemmas (C8): no in-flight message is ever persisted -/

theorem LoopInv_pair_snd {e : Except JsError LoopResult} {st : LoopSt} :
    LoopInv st → LoopInv (e, st).2 := fun h => h

theorem LoopInv_updateToolStatus (st : LoopSt) (msgId : Nat) (u : StatusUpd) :
    LoopInv st → LoopInv (updateToolStatus st msgId u) := by
  rintro ⟨h1, h2, h3⟩
  have key : ∀ m : UiMsg,
      ((if m.msgId = msgId then
          { m with toolCalls := m.toolCalls.map (fun cs => applyStatusToCalls cs u) }
        else m) : UiMsg).msgId = m.msgId ∧
      ((if m.msgId = msgId then
          { m with toolCalls := m.toolCalls.map (fun cs => applyStatusToCalls cs u) }
        else m) : UiMsg).isStreaming = m.isStreaming := by
    intro m
    by_cases h : m.msgId = msgId <;> simp [h]
  refine ⟨?_, ?_, ?_⟩
  · intro m hm hstr p hp
    obtain ⟨m0, hm0, rfl⟩ := List.mem_map.mp hm
    rw [(key m0).1]
    rw [(key m0).2] at hstr
    exact h1 m0 hm0 hstr p hp
  · intro p hp
    exact h2 p hp
  · intro m hm
    obtain ⟨m0, hm0, rfl⟩ := List.mem_map.mp hm
    rw [(key m0).1]
    exact h3 m0 hm0

theorem noStream_updateToolStatus (st : LoopSt) (msgId : Nat) (u : StatusUpd)
    (i : Nat) (h : ∀ m ∈ st.ui, m.msgId = i → m.isStreaming = false) :
    ∀ m ∈ (updateToolStatus st msgId u).ui, m.msgId = i → m.isStreaming = false := by
  intro m hm hid
  obtain ⟨m0, hm0, rfl⟩ := List.mem_map.mp hm
  by_cases hcase : m0.msgId = msgId
  · rw [if_pos hcase] at hid ⊢
    simpa using h m0 hm0 (by simpa using hid)
  · rw [if_neg hcase] at hid ⊢
    exact h m0 hm0 hid

theorem LoopInv_foldUpd (msgId : Nat) :
    ∀ (us : List StatusUpd) (st : LoopSt), LoopInv st →
      LoopInv (us.foldl (fun s u => updateToolStatus s msgId u) st) := by
  intro us
  induction us with
  | nil => intro st h; exact h
  | cons u us ih =>
    intro st h
    exact ih (updateToolStatus st msgId u) (LoopInv_updateToolStatus st msgId u h)

theorem noStream_foldUpd (msgId i : Nat) :
    ∀ (us : List StatusUpd) (st : LoopSt),
      (∀ m ∈ st.ui, m.msgId = i → m.isStreaming = false) →
      ∀ m ∈ (us.foldl (fun s u => updateToolStatus s msgId u) st).ui,
        m.msgId = i → m.isStreaming = false := by
  intro us
  induction us with
  | nil => intro st h; exact h
  | cons u us ih =>
    intro st h
    exact ih (updateToolStatus st msgId u) (noStream_updateToolStatus st msgId u i h)

theorem LoopInv_setWorld (st : LoopSt) (w : World) :
    LoopInv st → LoopInv { st with world := w } := fun h => h

theorem LoopInv_execTools (ext : Ext) (pid : Str) (mid : Nat) :
    ∀ (calls : List ToolCall) (st : LoopSt) (res : List (Str × Str))
      (del : List DelegateTaskInfo), LoopInv st →
      LoopInv (execTools ext pid mid calls st res del).2.2 := by
  intro calls
  induction calls with
  | nil => intro st res del h; exact h
  | cons tc rest ih =>
    intro st res del h
    simp only [execTools]
    apply ih
    apply LoopInv_updateToolStatus
    apply LoopInv_setWorld
    apply LoopInv_foldUpd
    exact h

theorem noStream_execTools (ext : Ext) (pid : Str) (mid i : Nat) :
    ∀ (calls : List ToolCall) (st : LoopSt) (res : List (Str × Str))
      (del : List DelegateTaskInfo),
      (∀ m ∈ st.ui, m.msgId = i → m.isStreaming = false) →
      ∀ m ∈ (execTools ext pid mid calls st res del).2.2.ui,
        m.msgId = i → m.isStreaming = false := by
  intro calls
  induction calls with
  | nil => intro st res del h; exact h
  | cons tc rest ih =>
    intro st res del h
    simp only [execTools]
    apply ih
    apply noStream_updateToolStatus
    apply noStream_foldUpd
    exact h

theorem noStream_finalizeMap (ui : List UiMsg) (aid : Nat) (cont : Str)
    (th : Option Str) (tcs : Option (List ToolCall)) :
    ∀ m ∈ ui.map (fun m =>
        if m.msgId = aid then
          ({ m with
              content := cont, thinking := th, toolCalls := tcs,
              isStreaming := false } : UiMsg)
        else m),
      m.msgId = aid → m.isStreaming = false := by
  intro m hm hid
  obtain ⟨m0, hm0, rfl⟩ := List.mem_map.mp hm
  by_cases hcase : m0.msgId = aid
  · rw [if_pos hcase]
  · rw [if_neg hcase] at hid ⊢
    exact absurd hid hcase

theorem LoopInv_persistF (n : Nat) (ui : List UiMsg) (ps : List PersistedMsg)
    (w : World) (tr : List StatusUpd) (mc : Nat) (il : List IterRec)
    (row : PersistedMsg) (hrow : row.msgId < n)
    (hns : ∀ m ∈ ui, m.msgId = row.msgId → m.isStreaming = false) :
    LoopInv ⟨n, ui, ps, w, tr, mc, il⟩ → LoopInv ⟨n, ui, ps ++ [row], w, tr, mc, il⟩ := by
  rintro ⟨h1, h2, h3⟩
  refine ⟨?_, ?_, ?_⟩
  · intro m hm hstr p hp
    rcases List.mem_append.mp hp with hp0 | hp0
    · exact h1 m hm hstr p hp0
    · have hpe : p = row := by simpa using hp0
      subst hpe
      intro he
      have hmf := hns m hm he.symm
      rw [hmf] at hstr
      cases hstr
  · intro p hp
    rcases List.mem_append.mp hp with hp0 | hp0
    · exact h2 p hp0
    · have hpe : p = row := by simpa using hp0
      subst hpe
      exact hrow
  · exact h3

theorem LoopInv_finalizeF (n : Nat) (ui : List UiMsg) (ps : List PersistedMsg)
    (w : World) (tr : List StatusUpd) (mc : Nat) (il il2 : List IterRec)
    (aid : Nat) (cont : Str) (th : Option Str) (tcs : Option (List ToolCall)) :
    LoopInv ⟨n, ui, ps, w, tr, mc, il⟩ →
    LoopInv ⟨n, ui.map (fun m =>
        if m.msgId = aid then
          ({ m with
              content := cont, thinking := th, toolCalls := tcs,
              isStreaming := false } : UiMsg)
        else m), ps, w, tr, mc, il2⟩ := by
  rintro ⟨h1, h2, h3⟩
  have key : ∀ m : UiMsg,
      ((if m.msgId = aid then
          ({ m with
              content := cont, thinking := th, toolCalls := tcs,
              isStreaming := false } : UiMsg)
        else m) : UiMsg).msgId = m.msgId := by
    intro m; by_cases h : m.msgId = aid <;> simp [h]
  refine ⟨?_, ?_, ?_⟩
  · intro m hm hstr p hp
    obtain ⟨m0, hm0, rfl⟩ := List.mem_map.mp hm
    rw [key m0]
    by_cases hcase : m0.msgId = aid
    · rw [if_pos hcase] at hstr
      simp at hstr
    · rw [if_neg hcase] at hstr
      exact h1 m0 hm0 hstr p hp
  · intro p hp; exact h2 p hp
  · intro m hm
    obtain ⟨m0, hm0, rfl⟩ := List.mem_map.mp hm
    rw [key m0]
    exact h3 m0 hm0

theorem LoopInv_addPlaceholderF (n : Nat) (ui : List UiMsg) (ps : List PersistedMsg)
    (w : World) (tr : List StatusUpd) (mc mc2 : Nat) (il il2 : List IterRec)
    (pl : UiMsg) (hpl : pl.msgId = n) :
    LoopInv ⟨n, ui, ps, w, tr, mc, il⟩ →
    LoopInv ⟨n + 1, ui ++ [pl], ps, w, tr, mc2, il2⟩ := by
  rintro ⟨h1, h2, h3⟩
  refine ⟨?_, ?_, ?_⟩
  · intro m hm hstr p hp
    rcases List.mem_append.mp hm with hm0 | hm0
    · exact h1 m hm0 hstr p hp
    · have hme : m = pl := by simpa using hm0
      subst hme
      rw [hpl]
      intro he
      exact absurd (he ▸ h2 p hp) (lt_irrefl _)
  · intro p hp
    exact Nat.lt_succ_of_lt (h2 p hp)
  · intro m hm
    rcases List.mem_append.mp hm with hm0 | hm0
    · exact Nat.lt_succ_of_lt (h3 m hm0)
    · have hme : m = pl := by simpa using hm0
      subst hme
      rw [hpl]
      exact Nat.lt_succ_self _

theorem LoopInv_aux (ext : Ext) (model : List Msg → CallResult) (projectId : Str)
    (currentAgentId delegatedFrom : Option Str) :
    ∀ (fuel : Nat) (msgs : List Msg) (pending : List DelegateTaskInfo)
      (lastContent : Str) (st : LoopSt), LoopInv st →
      LoopInv (runAgentLoopAux ext model projectId currentAgentId delegatedFrom
        fuel msgs pending lastContent st).2 := by
  intro fuel
  induction fuel with
  | zero => intro msgs pending lastContent st h; exact h
  | succ fuel ih =>
    intro msgs pending lastContent st h
    simp only [runAgentLoopAux]
    rcases hmod : model msgs with raw | _ | m
    all_goals simp only [hmod]
    · -- success
      rcases hemp : (parseToolCalls raw).2.isEmpty with _ | _
      · -- tool calls present
        simp only [hemp, Bool.false_eq_true, if_false]
        split
        · apply LoopInv_pair_snd
          apply LoopInv_persistF
          · rw [execTools_nextId]
            exact Nat.lt_succ_self _
          · apply noStream_execTools
            apply noStream_finalizeMap
          · apply LoopInv_execTools
            apply LoopInv_finalizeF
            apply LoopInv_addPlaceholderF st.nextId st.ui st.persisted st.world
              st.statusTrace st.modelCalls (st.modelCalls + 1) st.iterLog st.iterLog
            · rfl
            · exact h
        · apply ih
          apply LoopInv_persistF
          · rw [execTools_nextId]
            exact Nat.lt_succ_self _
          · apply noStream_execTools
            apply noStream_finalizeMap
          · apply LoopInv_execTools
            apply LoopInv_finalizeF
            apply LoopInv_addPlaceholderF st.nextId st.ui st.persisted st.world
              st.statusTrace st.modelCalls (st.modelCalls + 1) st.iterLog st.iterLog
            · rfl
            · exact h
      · -- plain text: the loop halts this iteration
        simp only [hemp, eq_self_iff_true, if_true]
        apply LoopInv_persistF
        · exact Nat.lt_succ_self _
        · apply noStream_finalizeMap
        · apply LoopInv_finalizeF
          apply LoopInv_addPlaceholderF st.nextId st.ui st.persisted st.world
            st.statusTrace st.modelCalls (st.modelCalls + 1) st.iterLog st.iterLog
          · rfl
          · exact h
    · -- aborted
      apply LoopInv_addPlaceholderF st.nextId st.ui st.persisted st.world
        st.statusTrace st.modelCalls (st.modelCalls + 1) st.iterLog st.iterLog
      · rfl
      · exact h
    · -- failed
      apply LoopInv_addPlaceholderF st.nextId st.ui st.persisted st.world
        st.statusTrace st.modelCalls (st.modelCalls + 1) st.iterLog st.iterLog
      · rfl
      · exact h

theorem LoopInv_runAgentLoop (ext : Ext) (model : List Msg → CallResult)
    (projectId : Str) (currentAgentId delegatedFrom : Option Str)
    (initialMessages : List Msg) (st : LoopSt) :
    LoopInv st →
    LoopInv (runAgentLoop ext model projectId currentAgentId delegatedFrom
      initialMessages st).2 :=
  LoopInv_aux ext model projectId currentAgentId delegatedFrom maxLoops
    initialMessages [] [] st

theorem LoopInv_runDelegations (ext : Ext) (model : List Msg → CallResult)
    (pid leaderId : Str) :
    ∀ (ds : List DelegateTaskInfo) (st : LoopSt) (reports : List Str),
      LoopInv st → LoopInv (runDelegations ext model pid leaderId ds st reports).2 := by
  intro ds
  induction ds with
  | nil => intro st reports h; exact h
  | cons d rest ih =>
    intro st reports h
    simp only [runDelegations]
    rcases hr : runAgentLoop ext model pid d.agentId (some leaderId)
        [delegationUserMsg d] st with ⟨res, st2⟩
    have h2 : LoopInv st2 := by
      have hall := LoopInv_runAgentLoop ext model pid d.agentId (some leaderId)
        [delegationUserMsg d] st h
      rw [hr] at hall
      exact hall
    cases res with
    | error e => exact h2
    | ok r => exact ih st2 _ h2

theorem LoopInv_orchestrate (ext : Ext) (model : List Msg → CallResult)
    (pid leaderId : Str) :
    ∀ (rounds : Nat) (r : LoopResult) (st : LoopSt),
      LoopInv st → LoopInv (orchestrate ext model pid leaderId rounds r st).2 := by
  intro rounds
  induction rounds with
  | zero => intro r st h; exact h
  | succ rounds ih =>
    intro r st h
    simp only [orchestrate]
    by_cases hd : r.delegations = []
    · rw [if_pos hd]; exact h
    · rw [if_neg hd]
      split
      · rename_i e st2 heq
        have hall := LoopInv_runDelegations ext model pid leaderId r.delegations st [] h
        rw [heq] at hall
        exact hall
      · rename_i reports st2 heq
        have h2 : LoopInv st2 := by
          have hall := LoopInv_runDelegations ext model pid leaderId r.delegations st [] h
          rw [heq] at hall
          exact hall
        split
        · rename_i e st3 heq2
          have hall := LoopInv_runAgentLoop ext model pid (some leaderId) none
            (r.conversationMessages ++ [⟨"assistant".data, r.finalContent⟩,
              delegationFeedbackMsg reports]) st2 h2
          rw [heq2] at hall
          exact hall
        · rename_i r2 st3 heq2
          have hall := LoopInv_runAgentLoop ext model pid (some leaderId) none
            (r.conversationMessages ++ [⟨"assistant".data, r.finalContent⟩,
              delegationFeedbackMsg reports]) st2 h2
          rw [heq2] at hall
          exact ih r2 st3 hall

theorem LoopInv_sendRun (ext : Ext) (model : List Msg → CallResult)
    (projectId agentId : Str) (initialMessages : List Msg) (st : LoopSt)
    (h : LoopInv st) :
    LoopInv (sendRun ext model projectId agentId initialMessages st).2 := by
  simp only [sendRun]
  split
  · rename_i e stE heq
    have hall := LoopInv_runAgentLoop ext model projectId (some agentId) none
      initialMessages st h
    rw [heq] at hall
    exact hall
  · rename_i r st1 heq
    have hall := LoopInv_runAgentLoop ext model projectId (some agentId) none
      initialMessages st h
    rw [heq] at hall
    exact LoopInv_orchestrate ext model projectId agentId maxDelegationRounds r st1 hall

theorem sendFinish_abort_inv (prevAgentId agentId : Str)
    (run : Except JsError LoopResult × LoopSt) (hinv : LoopInv run.2)
    (hab : (sendFinish prevAgentId agentId run).abortedRun = true) :
    (sendFinish prevAgentId agentId run).errorState = none ∧
    ∀ m ∈ (sendFinish prevAgentId agentId run).ui, m.isStreaming = true →
      ∀ p ∈ (sendFinish prevAgentId agentId run).persisted, ¬ p.msgId = m.msgId := by
  rcases run with ⟨res, st2⟩
  rcases res with e | r
  · rcases e with _ | msg
    · refine ⟨rfl, ?_⟩
      intro m hm hstr p hp
      exact hinv.1 m hm hstr p hp
    · exact absurd hab (by simp [sendFinish])
  · exact absurd hab (by simp [sendFinish])

/-- **C8.** If the user cancels generation mid-stream (the run ends aborted),
the store's error state is `null` — cancellation is not an error — and no
in-flight (still streaming) assistant message of the final UI state has been
inserted into the persisted message store: every persisted row's id differs
from every streaming message's id. -/
theorem cancellation_never_persists_partial (ext : Ext)
    (model : List Msg → CallResult) (projectId content : Str) (st0 : ChatStateM)
    (world0 : World) (nextId0 : Nat)
    (hids : ∀ m ∈ st0.messages, m.msgId < nextId0)
    (hab : (sendMessage ext model projectId content st0 world0 nextId0).abortedRun
      = true) :
    (sendMessage ext model projectId content st0 world0 nextId0).errorState = none ∧
    ∀ m ∈ (sendMessage ext model projectId content st0 world0 nextId0).ui,
      m.isStreaming = true →
      ∀ p ∈ (sendMessage ext model projectId content st0 world0 nextId0).persisted,
        ¬ p.msgId = m.msgId := by
  apply sendFinish_abort_inv
  · apply LoopInv_sendRun
    refine ⟨?_, ?_, ?_⟩
    · intro m hm hstr p hp
      have hp2 : p = ⟨nextId0, projectId, "user".data, content, none⟩ := by
        simpa using hp
      subst hp2
      rcases List.mem_append.mp hm with hm0 | hm0
      · by_cases hsw : st0.messagesProjectId ≠ some projectId
        · rw [if_pos hsw] at hm0
          simp at hm0
        · rw [if_neg hsw] at hm0
          intro he
          have h2 := hids m hm0
          simp at he
          omega
      · have hme : m = { msgId := nextId0, role := "user".data, content := content } := by
          simpa using hm0
        subst hme
        simp at hstr
    · intro p hp
      have hp2 : p = ⟨nextId0, projectId, "user".data, content, none⟩ := by
        simpa using hp
      subst hp2
      exact Nat.lt_succ_self _
    · intro m hm
      rcases List.mem_append.mp hm with hm0 | hm0
      · by_cases hsw : st0.messagesProjectId ≠ some projectId
        · rw [if_pos hsw] at hm0
          simp at hm0
        · rw [if_neg hsw] at hm0
          exact Nat.lt_succ_of_lt (hids m hm0)
      · have hme : m = { msgId := nextId0, role := "user".data, content := content } := by
          simpa using hm0
        subst hme
        exact Nat.lt_succ_self _
  · exact hab

/-- C8 witness: a model whose very first call is aborted by the user.  The run
reports `abortedRun`, the error state is `null`, and no streaming UI message
id occurs among the persisted rows. -/
theorem cancellation_never_persists_partial_witness :
    (sendMessage ⟨fun _ _ _ => .ok (), fun _ _ => .ok true, fun _ => .ok []⟩
        (fun _ => .abortedCall) "p".data "hi".data ⟨[], none, "engineer".data⟩
        ⟨[], false⟩ 0).abortedRun = true ∧
    ((sendMessage ⟨fun _ _ _ => .ok (), fun _ _ => .ok true, fun _ => .ok []⟩
        (fun _ => .abortedCall) "p".data "hi".data ⟨[], none, "engineer".data⟩
        ⟨[], false⟩ 0).errorState = none ∧
      ∀ m ∈ (sendMessage ⟨fun _ _ _ => .ok (), fun _ _ => .ok true, fun _ => .ok []⟩
          (fun _ => .abortedCall) "p".data "hi".data ⟨[], none, "engineer".data⟩
          ⟨[], false⟩ 0).ui,
        m.isStreaming = true →
        ∀ p ∈ (sendMessage ⟨fun _ _ _ => .ok (), fun _ _ => .ok true, fun _ => .ok []⟩
            (fun _ => .abortedCall) "p".data "hi".data ⟨[], none, "engineer".data⟩
            ⟨[], false⟩ 0).persisted, ¬ p.msgId = m.msgId) :=
  ⟨by rfl,
   cancellation_never_persists_partial
     ⟨fun _ _ _ => .ok (), fun _ _ => .ok true, fun _ => .ok []⟩
     (fun _ => .abortedCall) "p".data "hi".data ⟨[], none, "engineer".data⟩
     ⟨[], false⟩ 0 (fun m hm => absurd hm (by intro hx; cases hx)) (by rfl)⟩

/-! ### Occurrence and prefix lemmas for the sentinel and tag scanners -/

theorem isPre_iff (pat s : Str) : isPre pat s = true ↔ pat <+: s := by
  simp [isPre, List.isPrefixOf_iff_prefix]

theorem isPre_self_append (pat r : Str) : isPre pat (pat ++ r) = true :=
  (isPre_iff _ _).mpr (List.prefix_append pat r)

theorem isPre_of_prefix {pat u v : Str} (h : isPre pat u = true) (huv : u <+: v) :
    isPre pat v = true :=
  (isPre_iff _ _).mpr (((isPre_iff _ _).mp h).trans huv)

theorem isPre_long_append (pat x y : Str) (h : pat.length ≤ x.length) :
    isPre pat (x ++ y) = isPre pat x := by
  rcases hb : isPre pat x with _ | _
  · rcases hc : isPre pat (x ++ y) with _ | _
    · rfl
    · exfalso
      have h1 := (isPre_iff _ _).mp hc
      have h2 : x <+: x ++ y := List.prefix_append x y
      have h3 := List.prefix_of_prefix_length_le h1 h2 h
      exact absurd ((isPre_iff _ _).mpr h3) (by simp [hb])
  · exact isPre_of_prefix hb (List.prefix_append x y)

theorem isPre_short_split (pat x y : Str) (h : isPre pat (x ++ y) = true)
    (hx : x.length ≤ pat.length) : isPre (pat.drop x.length) y = true := by
  have h1 := (isPre_iff _ _).mp h
  have h2 : x <+: x ++ y := List.prefix_append x y
  have h3 : x <+: pat := List.prefix_of_prefix_length_le h2 h1 hx
  obtain ⟨t, ht⟩ := h3
  have hd : pat.drop x.length = t := by
    rw [← ht, List.drop_append_of_le_length (le_refl x.length), List.drop_length,
      List.nil_append]
  rw [hd]
  apply (isPre_iff _ _).mpr
  rw [← ht] at h1
  exact (List.prefix_append_right_inj x).mp h1

theorem isPre_cons_head {a c : Char} {as s : Str}
    (h : isPre (a :: as) (c :: s) = true) : a = c ∧ isPre as s = true := by
  simp only [isPre, List.isPrefixOf, Bool.and_eq_true, beq_iff_eq] at h
  exact ⟨h.1, h.2⟩

theorem occursIn_iff_drop (pat : Str) :
    ∀ s : Str, occursIn pat s = true ↔ ∃ j, isPre pat (s.drop j) = true := by
  intro s
  induction s with
  | nil =>
    constructor
    · intro h
      refine ⟨0, ?_⟩
      by_cases hp : isPre pat [] = true
      · exact hp
      · simp [occursIn, firstOcc, hp] at h
    · rintro ⟨j, hj⟩
      simp only [List.drop_nil] at hj
      simp [occursIn, firstOcc, hj]
  | cons c rest ih =>
    constructor
    · intro h
      by_cases hp : isPre pat (c :: rest) = true
      · exact ⟨0, hp⟩
      · have h2 : occursIn pat rest = true := by
          simp only [occursIn, firstOcc, hp, if_false] at h
          simpa [occursIn] using h
        obtain ⟨j, hj⟩ := ih.mp h2
        exact ⟨j + 1, hj⟩
    · rintro ⟨j, hj⟩
      rcases j with _ | j
      · simp only [List.drop] at hj
        simp [occursIn, firstOcc, hj]
      · simp only [List.drop] at hj
        have h2 : occursIn pat rest = true := ih.mpr ⟨j, hj⟩
        by_cases hp : isPre pat (c :: rest) = true
        · simp [occursIn, firstOcc, hp]
        · simp only [occursIn, firstOcc, hp, if_false]
          simpa [occursIn] using h2

theorem occursIn_false_no_isPre {pat s : Str} (h : occursIn pat s = false) :
    ∀ j, isPre pat (s.drop j) = false := by
  intro j
  rcases hb : isPre pat (s.drop j) with _ | _
  · rfl
  · have := (occursIn_iff_drop pat s).mpr ⟨j, hb⟩
    rw [h] at this
    cases this

theorem occursIn_infix_mono {pat u t : Str} (h : occursIn pat t = false)
    (hinf : u <:+: t) : occursIn pat u = false := by
  rcases hb : occursIn pat u with _ | _
  · rfl
  · exfalso
    obtain ⟨j0, hj0⟩ := (occursIn_iff_drop pat u).mp hb
    have hj : isPre pat (u.drop (min j0 u.length)) = true := by
      rcases Nat.le_total j0 u.length with hle | hle
      · rwa [min_eq_left hle]
      · rw [min_eq_right hle, List.drop_length]
        rwa [List.drop_eq_nil_of_le hle] at hj0
    have hjle : min j0 u.length ≤ u.length := min_le_right _ _
    obtain ⟨a, b, hab⟩ := hinf
    have hdrop : t.drop (a.length + min j0 u.length)
        = u.drop (min j0 u.length) ++ b := by
      rw [← hab, List.append_assoc, List.drop_append_eq_append_drop,
        List.drop_eq_nil_of_le (Nat.le_add_right _ _), List.nil_append,
        Nat.add_sub_cancel_left, List.drop_append_eq_append_drop,
        Nat.sub_eq_zero_of_le hjle, List.drop_zero]
    have h2 : isPre pat (t.drop (a.length + min j0 u.length)) = true := by
      rw [hdrop]
      exact isPre_of_prefix hj (List.prefix_append _ _)
    have h3 := (occursIn_iff_drop pat t).mpr ⟨a.length + min j0 u.length, h2⟩
    rw [h] at h3
    cases h3

theorem firstOcc_take_no_occ (pat : Str) (hpat : pat ≠ []) :
    ∀ (s : Str) (i : Nat), firstOcc pat s = some i → occursIn pat (s.take i) = false := by
  intro s
  induction s with
  | nil =>
    intro i h
    by_cases hp : isPre pat [] = true
    · exact absurd (List.prefix_nil.mp ((isPre_iff _ _).mp hp)) hpat
    · simp [firstOcc, hp] at h
  | cons c rest ih =>
    intro i h
    by_cases hp : isPre pat (c :: rest) = true
    · simp only [firstOcc, hp, if_true, Option.some.injEq] at h
      subst h
      simp only [List.take_zero]
      rcases pat with _ | ⟨a, as⟩
      · exact absurd rfl hpat
      · rfl
    · simp only [firstOcc, hp, if_false] at h
      rcases hrec : firstOcc pat rest with _ | i0
      · rw [hrec] at h; cases h
      · rw [hrec] at h
        have hi : i = i0 + 1 := by simpa using h.symm
        subst hi
        simp only [List.take_succ_cons]
        have hih := ih i0 hrec
        rcases hb : occursIn pat (c :: rest.take i0) with _ | _
        · rfl
        · exfalso
          obtain ⟨j, hj⟩ := (occursIn_iff_drop pat _).mp hb
          rcases j with _ | j
          · simp only [List.drop] at hj
            have : isPre pat (c :: rest) = true := by
              refine isPre_of_prefix hj ?_
              exact ⟨rest.drop i0, by simp⟩
            exact absurd this hp
          · simp only [List.drop] at hj
            have : occursIn pat (rest.take i0) = true :=
              (occursIn_iff_drop pat _).mpr ⟨j, hj⟩
            rw [hih] at this
            cases this

/-! ### C4: the streamed display projection and reasoning tags -/

theorem lowerS_take (s : Str) (i : Nat) : lowerS (s.take i) = (lowerS s).take i := by
  simp [lowerS, List.map_take]

theorem lowerS_ne_nil {pat : Str} (h : pat ≠ []) : lowerS pat ≠ [] := by
  simpa [lowerS] using h

theorem occursInCI_infix_mono {pat u t : Str} (h : occursInCI pat t = false)
    (hinf : u <:+: t) : occursInCI pat u = false :=
  occursIn_infix_mono h (hinf.map lower)

theorem cutFromCI_no_occ (pat s : Str) (hpat : pat ≠ []) :
    occursInCI pat (cutFromCI pat s) = false := by
  rcases hf : firstOccCI pat s with _ | i
  · simp only [cutFromCI, hf]
    simp only [firstOccCI] at hf
    simp [occursInCI, occursIn, hf]
  · simp only [cutFromCI, hf]
    simp only [firstOccCI] at hf
    simp only [occursInCI, lowerS_take]
    exact firstOcc_take_no_occ (lowerS pat) (lowerS_ne_nil hpat) (lowerS s) i hf

theorem cutFromCI_pre (pat s : Str) : cutFromCI pat s <+: s := by
  rcases hf : firstOccCI pat s with _ | i
  · simp only [cutFromCI, hf]
    exact List.prefix_refl s
  · simp only [cutFromCI, hf]
    exact List.take_prefix i s

theorem ltrim_suffix (s : Str) : ltrim s <:+ s := List.dropWhile_suffix _

theorem rtrim_front (s : Str) : rtrim s <+: s := by
  have h : (s.reverse.dropWhile isSpaceChar) <:+ s.reverse := List.dropWhile_suffix _
  have h2 := List.reverse_prefix.mpr h
  simpa [rtrim] using h2

theorem trim_within (s : Str) : trim s <:+: s :=
  ((rtrim_front (ltrim s)).isInfix).trans ((ltrim_suffix s).isInfix)

/-- **C4.** Corrected.  The original claim fails: when an unterminated
`<think>` tag sits inside a closed `<thinking>...</thinking>` block, the
pair-removal pass strips the enclosing block and text *after* the unterminated
opener survives into the display.  On `"<thinking>a<think>b</thinking>c"` the
`<think>` opener at index 11 has no `</think>` closer anywhere, yet the
projection shows `"c"`, which occurs only after that opener. -/
theorem display_leaks_text_after_unterminated_think :
    occursInCI thinkOpen "<thinking>a<think>b</thinking>c".data = true ∧
    occursInCI thinkClose "<thinking>a<think>b</thinking>c".data = false ∧
    firstOccCI thinkOpen "<thinking>a<think>b</thinking>c".data = some 11 ∧
    displayProjection "<thinking>a<think>b</thinking>c".data = "c".data ∧
    occursIn "c".data (List.take 11 "<thinking>a<think>b</thinking>c".data) = false := by
  decide

/-- **C4** (amended).  What the streaming pipeline does guarantee: the clean
display projection never contains a `<think>` or `<thinking>` opening tag
(case-insensitively) — the trailing unterminated-tag cuts remove every
remaining opener, so no reasoning *tag* (and hence no recognizable reasoning
block) is ever shown, even though plain text located after an unterminated
opener can survive (see the counterexample). -/
theorem display_never_shows_reasoning_tag (raw : Str) :
    occursInCI thinkOpen (displayProjection raw) = false ∧
    occursInCI thinkingOpen (displayProjection raw) = false := by
  have h5 := cutFromCI_no_occ thinkOpen
    (trim (removePairsCI thinkingOpen thinkingClose
      (removePairsCI thinkOpen thinkClose (cutTC raw)))) (by decide)
  have h6pre := cutFromCI_pre thinkingOpen
    (cutFromCI thinkOpen (trim (removePairsCI thinkingOpen thinkingClose
      (removePairsCI thinkOpen thinkClose (cutTC raw)))))
  have h6 := cutFromCI_no_occ thinkingOpen
    (cutFromCI thinkOpen (trim (removePairsCI thinkingOpen thinkingClose
      (removePairsCI thinkOpen thinkClose (cutTC raw))))) (by decide)
  constructor
  · exact occursInCI_infix_mono (occursInCI_infix_mono h5 h6pre.isInfix) (trim_within _)
  · exact occursInCI_infix_mono h6 (trim_within _)

/-! ### C3: the trailing sentinel block of a raw model response -/

theorem findTCBody_append (R : Str) :
    ∀ v : Str, (∀ j, isPre tcOpen (v.drop j ++ R) = false) →
      findTCBody (v ++ R) = findTCBody R := by
  intro v
  induction v with
  | nil => intro _; rfl
  | cons c r ih =>
    intro h
    have h0 : isPre tcOpen (c :: (r ++ R)) = false := by simpa using h 0
    simp only [List.cons_append, findTCBody, List.append_eq, h0, Bool.false_eq_true,
      if_false]
    exact ih (fun j => by simpa using h (j + 1))

theorem vis_no_tcopen (v R : Str) (hv : occursIn tcOpen v = false) :
    ∀ j, isPre tcOpen (v.drop j ++ '\n' :: R) = false := by
  intro j
  rcases Nat.lt_or_ge (v.drop j).length tcOpen.length with hlt | hge
  · rcases hb : isPre tcOpen (v.drop j ++ '\n' :: R) with _ | _
    · rfl
    · exfalso
      have hsplit := isPre_short_split tcOpen (v.drop j) ('\n' :: R) hb
        (Nat.le_of_lt hlt)
      rcases hd : tcOpen.drop (v.drop j).length with _ | ⟨a, as⟩
      · have hlen : (tcOpen.drop (v.drop j).length).length = 0 := by rw [hd]; rfl
        rw [List.length_drop] at hlen
        omega
      · rw [hd] at hsplit
        obtain ⟨ha, _⟩ := isPre_cons_head hsplit
        have hmem : a ∈ tcOpen := by
          have ha2 : a ∈ tcOpen.drop (v.drop j).length := by
            rw [hd]; exact List.mem_cons_self a as
          exact List.drop_subset _ _ ha2
        rw [ha] at hmem
        exact absurd hmem (by decide)
  · rw [isPre_long_append tcOpen _ _ hge]
    exact occursIn_false_no_isPre hv j

theorem lazyTo_exact :
    ∀ body : Str, '\n' ∉ body → occursIn tcClose body = false →
      lazyTo tcClose (body ++ tcClose) = some (body.length + tcClose.length) := by
  intro body
  induction body with
  | nil => intro _ _; decide
  | cons c r ih =>
    intro h2 h3
    have hpre : isPre tcClose (c :: (r ++ tcClose)) = false := by
      rcases Nat.lt_or_ge (c :: r).length tcClose.length with hlt | hge
      · rcases hb : isPre tcClose (c :: (r ++ tcClose)) with _ | _
        · rfl
        · exfalso
          have hb2 : isPre tcClose ((c :: r) ++ tcClose) = true := by simpa using hb
          have hsplit := isPre_short_split tcClose (c :: r) tcClose hb2
            (Nat.le_of_lt hlt)
          have hlen : (c :: r).length = 1 ∨ (c :: r).length = 2 := by
            have hpos : 0 < (c :: r).length := by simp
            have hub : (c :: r).length < 3 := by simpa using hlt
            omega
          rcases hlen with hl | hl <;> rw [hl] at hsplit <;>
            exact absurd hsplit (by decide)
      · have hb2 : isPre tcClose ((c :: r) ++ tcClose) = isPre tcClose (c :: r) :=
          isPre_long_append tcClose _ _ hge
        rcases hb : isPre tcClose (c :: r) with _ | _
        · rw [← List.cons_append, hb2]
          exact hb
        · exfalso
          have hocc : occursIn tcClose (c :: r) = true :=
            (occursIn_iff_drop _ _).mpr ⟨0, by simpa using hb⟩
          rw [h3] at hocc
          cases hocc
    have hc : ¬ c = '\n' := fun hh => h2 (hh ▸ List.mem_cons_self c r)
    have hih := ih (fun hm => h2 (List.mem_cons_of_mem c hm))
      (occursIn_infix_mono h3 (List.suffix_cons c r).isInfix)
    simp only [List.cons_append, lazyTo, List.append_eq, hpre, Bool.false_eq_true,
      if_false, hc, hih, List.length_cons]
    exact congrArg some (show r.length + List.length tcClose + 1
      = r.length + 1 + List.length tcClose by omega)

theorem findTCBody_found (s : Str) (n : Nat) (hpre : isPre tcOpen s = true)
    (hlazy : lazyTo tcClose (s.drop tcOpen.length) = some n) :
    findTCBody s = some ((s.drop tcOpen.length).take (n - tcClose.length)) := by
  rcases s with _ | ⟨c, rest⟩
  · exact absurd hpre (by decide)
  · simp only [findTCBody, hpre, if_true, hlazy]

theorem removeScan_keep (M : Str → Option Nat) (R : Str) :
    ∀ v : Str, (∀ j, j < v.length → M (v.drop j ++ R) = none) →
      removeScan M (v ++ R) 0 = v ++ removeScan M R 0 := by
  intro v
  induction v with
  | nil => intro _; rfl
  | cons c r ih =>
    intro h
    have h0 : M (c :: (r ++ R)) = none := by simpa using h 0 (by simp)
    simp only [List.cons_append, removeScan, List.append_eq, h0]
    rw [ih (fun j hj => by simpa using h (j + 1) (by simpa using Nat.succ_lt_succ hj))]

theorem removeScan_ge (M : Str → Option Nat) :
    ∀ (s : Str) (k : Nat), s.length ≤ k → removeScan M s k = [] := by
  intro s
  induction s with
  | nil => intro k _; rfl
  | cons c r ih =>
    intro k hk
    rcases k with _ | k'
    · simp at hk
    · exact ih k' (by simpa using hk)

theorem findTCBody_cons_skip (c : Char) (rest : Str)
    (h : isPre tcOpen (c :: rest) = false) :
    findTCBody (c :: rest) = findTCBody rest := by
  simp only [findTCBody, h, Bool.false_eq_true, if_false]

/-- **C3.** A raw response that ends in a well-formed sentinel block
`<!--TOOL_CALLS:[...]-->` — visible text, a newline, then the sentinel with a
single-line JSON body that decodes to wire triples — parses to exactly the
encoded calls (each call's `arguments` string deserialized by `argParse`,
which wraps unparseable strings under `_raw`) and a clean content equal to
the trimmed visible text, every sentinel substring removed. -/
theorem parse_tool_calls_sentinel (visible body : Str) (j : Json)
    (triples : List TCTriple)
    (h1 : occursIn tcOpen visible = false)
    (h2 : '\n' ∉ body)
    (h3 : occursIn tcClose body = false)
    (h4 : jsonParse body = some j)
    (h5 : decodeTriples j = some triples) :
    parseToolCalls (visible ++ '\n' :: (tcOpen ++ body ++ tcClose))
      = (trim visible, triples.map mkPendingCall) := by
  have hS : (tcOpen ++ body ++ tcClose).drop tcOpen.length = body ++ tcClose := by
    rw [List.append_assoc, List.drop_left]
  have hlazy : lazyTo tcClose ((tcOpen ++ body ++ tcClose).drop tcOpen.length)
      = some (body.length + tcClose.length) := by
    rw [hS]
    exact lazyTo_exact body h2 h3
  have hpreS : isPre tcOpen (tcOpen ++ body ++ tcClose) = true := by
    rw [List.append_assoc]
    exact isPre_self_append _ _
  have hnl : isPre tcOpen ('\n' :: (tcOpen ++ body ++ tcClose)) = false := rfl
  have hfind : findTCBody (visible ++ '\n' :: (tcOpen ++ body ++ tcClose))
      = some body := by
    rw [findTCBody_append _ visible (vis_no_tcopen visible _ h1),
      findTCBody_cons_skip _ _ hnl, findTCBody_found _ _ hpreS hlazy, hS,
      Nat.add_sub_cancel, List.take_left]
  have hmtc : ∀ i, i < visible.length →
      matchTC (visible.drop i ++ '\n' :: (tcOpen ++ body ++ tcClose)) = none := by
    intro i hi
    rcases hd : visible.drop i with _ | ⟨c, x⟩
    · exfalso
      have hlen : (visible.drop i).length = 0 := by rw [hd]; rfl
      rw [List.length_drop] at hlen
      omega
    · have hx : visible.drop (i + 1) = x := by
        have hdd := List.drop_drop 1 i visible
        rw [hd] at hdd
        simpa using hdd.symm
      have hv0 : isPre tcOpen (c :: (x ++ '\n' :: (tcOpen ++ body ++ tcClose)))
          = false := by
        have hv := vis_no_tcopen visible (tcOpen ++ body ++ tcClose) h1 i
        rw [hd] at hv
        simpa using hv
      have hv1 : isPre tcOpen (x ++ '\n' :: (tcOpen ++ body ++ tcClose)) = false := by
        have hv := vis_no_tcopen visible (tcOpen ++ body ++ tcClose) h1 (i + 1)
        rw [hx] at hv
        exact hv
      simp only [List.cons_append, matchTC, List.append_eq, hv0, hv1,
        Bool.and_false, Bool.false_eq_true, if_false]
  have hmS : matchTC ('\n' :: (tcOpen ++ body ++ tcClose))
      = some (1 + tcOpen.length + (body.length + tcClose.length)) := by
    simp only [matchTC, hpreS, hlazy]
    simp
  have hrem : removeTC (visible ++ '\n' :: (tcOpen ++ body ++ tcClose)) = visible := by
    unfold removeTC
    rw [removeScan_keep matchTC _ visible hmtc]
    have hskip : removeScan matchTC ('\n' :: (tcOpen ++ body ++ tcClose)) 0 = [] := by
      simp only [removeScan, hmS]
      apply removeScan_ge
      have ht : List.length tcOpen = 15 := by decide
      have htc : List.length tcClose = 3 := by decide
      simp only [List.append_eq, List.length_append, List.length_cons,
        List.length_nil, ht, htc, Nat.add_eq]
      omega
    rw [hskip, List.append_nil]
  simp only [parseToolCalls, hfind, h4, Option.some_bind, h5, hrem]

/-- C3 witness: the producer format `ok\n<!--TOOL_CALLS:[...]-->` with one
`run_preview` call decodes to that single pending call and clean content
`ok`. -/
theorem parse_tool_calls_sentinel_witness :
    occursIn tcOpen "ok".data = false ∧
    '\n' ∉ "[\x7b\"id\":\"c1\",\"name\":\"run_preview\",\"arguments\":\"\"\x7d]".data ∧
    occursIn tcClose "[\x7b\"id\":\"c1\",\"name\":\"run_preview\",\"arguments\":\"\"\x7d]".data = false ∧
    jsonParse "[\x7b\"id\":\"c1\",\"name\":\"run_preview\",\"arguments\":\"\"\x7d]".data
      = some (Json.jarr [Json.jobj [("id".data, Json.jstr "c1".data),
          ("name".data, Json.jstr "run_preview".data),
          ("arguments".data, Json.jstr [])]]) ∧
    decodeTriples (Json.jarr [Json.jobj [("id".data, Json.jstr "c1".data),
          ("name".data, Json.jstr "run_preview".data),
          ("arguments".data, Json.jstr [])]])
      = some [⟨"c1".data, "run_preview".data, some []⟩] ∧
    parseToolCalls ("ok".data ++ '\n' :: (tcOpen
        ++ "[\x7b\"id\":\"c1\",\"name\":\"run_preview\",\"arguments\":\"\"\x7d]".data
        ++ tcClose))
      = (trim "ok".data,
         [⟨"c1".data, "run_preview".data, some []⟩].map mkPendingCall) :=
  ⟨by decide, by decide, by decide, by rfl, by rfl,
   parse_tool_calls_sentinel "ok".data
     "[\x7b\"id\":\"c1\",\"name\":\"run_preview\",\"arguments\":\"\"\x7d]".data
     (Json.jarr [Json.jobj [("id".data, Json.jstr "c1".data),
        ("name".data, Json.jstr "run_preview".data),
        ("arguments".data, Json.jstr [])]])
     [⟨"c1".data, "run_preview".data, some []⟩]
     (by decide) (by decide) (by decide) (by rfl) (by rfl)⟩

end Atoms

